import Mathlib

/-!
Verification of the whitespace-normalization engine of `fix_word_spaces_gui.py`.

Strings are modelled as `List Char`; Python `None` vs a string is modelled by
`Option (List Char)`.  Python exceptions (from `int(...)` on malformed input)
are modelled by `Option` results: `none` means the call raised.
-/

/-- The character class of `EXTRA_SPACE = re.compile(r"[  ]{2,}")`:
ASCII space or non-breaking space. -/
def nbsp : Char := Char.ofNat 160

/-- The character class of EXTRA_SPACE: ASCII space or non-breaking space. -/
def isSp (c : Char) : Bool := c = ' ' || c = nbsp

/-- Flush a pending run of space-class characters, as `EXTRA_SPACE.subn(" ", ·)`
does at the end of a maximal run: a run of length ≥ 2 becomes one ASCII space
(one substitution); shorter pending text is left as-is. -/
def crFlush (pend : List Char) : List Char × Nat :=
  if 2 ≤ pend.length then ([' '], 1) else (pend, 0)

/-- Left-to-right scan implementing `EXTRA_SPACE.subn(" ", s)`: `pend` is the
run of space-class characters read since the last non-space character. -/
def crGo (pend : List Char) : List Char → List Char × Nat
  | [] => crFlush pend
  | c :: rest =>
    if isSp c then crGo (pend ++ [c]) rest
    else
      let f := crFlush pend
      let r := crGo [] rest
      (f.1 ++ c :: r.1, f.2 + r.2)

/-- `EXTRA_SPACE.subn(" ", s)`: the substituted string and the number of
substitutions performed. -/
def subnSp (s : List Char) : List Char × Nat := crGo [] s

/-- The `collapse` helper of `_fix_odt_xml` on a (non-`None`) string: returns
the fixed string, the runs counted into `groups` and the characters counted
into `chars` (`len(s) - len(fixed)`).  `if not s` makes the empty string a
no-op. -/
def collapseS (s : List Char) : List Char × Nat × Nat :=
  if s.isEmpty then (s, 0, 0)
  else
    let r := subnSp s
    (r.1, r.2, s.length - r.1.length)

/-- The `collapse` helper on an optional string (`None` is falsy in Python, so
`collapse(None)` returns `None` with no counting). -/
def collapseO : Option (List Char) → Option (List Char) × Nat × Nat
  | none => (none, 0, 0)
  | some s =>
    let r := collapseS s
    (some r.1, r.2.1, r.2.2)

example : subnSp "a  b".toList = ("a b".toList, 1) := by decide
example : subnSp "a  b  ".toList = ("a b ".toList, 2) := by decide
example : subnSp " a b".toList = (" a b".toList, 0) := by decide

/-- Python `str.isspace` / bare `str.strip` character class (the Unicode
whitespace set Python uses). -/
def pyIsSpace (c : Char) : Bool :=
  let n := c.toNat
  (9 ≤ n && n ≤ 13) || (28 ≤ n && n ≤ 31) || n = 32 || n = 133 || n = 160 ||
  n = 0x1680 || (0x2000 ≤ n && n ≤ 0x200a) || n = 0x2028 || n = 0x2029 ||
  n = 0x202f || n = 0x205f || n = 0x3000

/-- Python `s.strip()` with no arguments: drop whitespace at both ends. -/
def pyStrip (s : List Char) : List Char :=
  ((s.dropWhile pyIsSpace).reverse.dropWhile pyIsSpace).reverse

/-- Accumulate the value of a nonempty ASCII digit string. -/
def digitsVal (acc : Nat) : List Char → Option Nat
  | [] => some acc
  | c :: rest => if c.isDigit then digitsVal (acc * 10 + (c.toNat - 48)) rest else none

/-- Python `int(s)` on a string, base 10 (ASCII core: surrounding whitespace,
an optional sign, then a nonempty digit run; `none` models the `ValueError`
raised on anything else). -/
def pyInt (s : List Char) : Option Int :=
  match pyStrip s with
  | '-' :: ds => if ds.isEmpty then none else (digitsVal 0 ds).map (fun n => -(n : Int))
  | '+' :: ds => if ds.isEmpty then none else (digitsVal 0 ds).map (fun n => (n : Int))
  | ds => if ds.isEmpty then none else (digitsVal 0 ds).map (fun n => (n : Int))

/-- An `xml.etree.ElementTree` element: tag, attributes (an insertion-ordered
dict), optional leading text, optional tail text, and the list of children. -/
inductive Elem where
  | mk (tag : String) (attrs : List (String × List Char))
       (text tail : Option (List Char)) (children : List Elem)
deriving Inhabited

def Elem.tag : Elem → String
  | .mk t _ _ _ _ => t

def Elem.attrs : Elem → List (String × List Char)
  | .mk _ a _ _ _ => a

def Elem.text : Elem → Option (List Char)
  | .mk _ _ tx _ _ => tx

def Elem.tail : Elem → Option (List Char)
  | .mk _ _ _ tl _ => tl

def Elem.children : Elem → List Elem
  | .mk _ _ _ _ ch => ch

/-- Replace an element's tail text (`child.tail = ...`). -/
def Elem.setTail : Elem → Option (List Char) → Elem
  | .mk t a tx _ ch, tl => .mk t a tx tl ch

/-- `el.get(key)`: first (only) binding of the attribute dict. -/
def lookupAttr (attrs : List (String × List Char)) (k : String) : Option (List Char) :=
  (attrs.find? (fun p => p.1 = k)).map (fun p => p.2)

/-- `el.set(key, v)`: dict update — replace in place if present, else append. -/
def setAttr (attrs : List (String × List Char)) (k : String) (v : List Char) :
    List (String × List Char) :=
  match attrs with
  | [] => [(k, v)]
  | p :: rest => if p.1 = k then (k, v) :: rest else p :: setAttr rest k v

/-- `W_T`, the qualified DOCX `w:t` tag. -/
def wT : String := "\x7bhttp://schemas.openxmlformats.org/wordprocessingml/2006/main\x7dt"

/-- The qualified `xml:space` attribute key. -/
def xmlSpaceKey : String := "\x7bhttp://www.w3.org/XML/1998/namespace\x7dspace"

/-- `T_S`, the qualified ODT `text:s` marker tag. -/
def tS : String := "\x7burn:oasis:names:tc:opendocument:xmlns:text:1.0\x7ds"

/-- `T_P`, the qualified ODT `text:p` paragraph tag. -/
def tP : String := "\x7burn:oasis:names:tc:opendocument:xmlns:text:1.0\x7dp"

/-- `T_C_ATTR`, the qualified ODT `text:c` repeat-count attribute key. -/
def tC : String := "\x7burn:oasis:names:tc:opendocument:xmlns:text:1.0\x7dc"

/-- One `text`/`tail` value step of `_fix_docx_xml`'s inner loop:
`if not val: continue`, else substitute; only when `n` is nonzero are the
counters bumped and the value written back.  The `Bool` records whether the
`if n:` branch fired (the new value was written). -/
def fixTextAttr (val : Option (List Char)) : Option (List Char) × Nat × Nat × Bool :=
  match val with
  | none => (none, 0, 0, false)
  | some s =>
    if s.isEmpty then (some s, 0, 0, false)
    else
      let r := subnSp s
      if r.2 ≠ 0 then (some r.1, r.2, s.length - r.1.length, true)
      else (some s, 0, 0, false)

mutual

/-- `_fix_docx_xml` on the parsed tree: every `w:t` element (the tree walk of
`root.iter(W_T)`) has its text and tail run through `EXTRA_SPACE`, and gets
`xml:space="preserve"` when its own text changed and the collapsed text is not
equal to its stripped form.  Returns the new tree with the accumulated
`groups`/`chars` counters. -/
def fixDocxTree (e : Elem) : Elem × Nat × Nat :=
  match e with
  | .mk tag attrs text tl ch =>
    let rc := fixDocxList ch
    if tag = wT then
      let rt := fixTextAttr text
      let attrs2 :=
        if rt.2.2.2 && !((rt.1.getD []) == pyStrip (rt.1.getD [])) then
          setAttr attrs xmlSpaceKey "preserve".toList
        else attrs
      let rtl := fixTextAttr tl
      (.mk tag attrs2 rt.1 rtl.1 rc.1,
       rt.2.1 + rtl.2.1 + rc.2.1, rt.2.2.1 + rtl.2.2.1 + rc.2.2)
    else
      (.mk tag attrs text tl rc.1, rc.2.1, rc.2.2)

def fixDocxList : List Elem → List Elem × Nat × Nat
  | [] => ([], 0, 0)
  | c :: rest =>
    let r1 := fixDocxTree c
    let r2 := fixDocxList rest
    (r1.1 :: r2.1, r1.2.1 + r2.2.1, r1.2.2 + r2.2.2)
end

/-- Sentinel element (for out-of-range `getD`; never reached on real runs). -/
instance : Inhabited Elem := ⟨.mk "" [] none none []⟩

/-- The reverse-order removal pass of `fix_element` (its final `for` loop over
`reversed(to_remove)`, so the argument list carries the indices highest
first).  Each step builds `collapse(" " + tail)` from the captured tail,
splices it — collapsed again after concatenation — into `parent.text` when the
marker was child 0, else into the tail of the sibling at `i - 1`, and then
deletes the child at `i`.  Returns the final parent text, children and the
counter increments. -/
def applyRemovals : List (Nat × List Char) → Option (List Char) → List Elem →
    Option (List Char) × List Elem × Nat × Nat
  | [], t, cs => (t, cs, 0, 0)
  | (i, tl) :: rest, t, cs =>
    let sp := collapseS (' ' :: tl)
    if i = 0 then
      let t2 := collapseS (t.getD [] ++ sp.1)
      let r := applyRemovals rest (some t2.1) (cs.eraseIdx 0)
      (r.1, r.2.1, sp.2.1 + t2.2.1 + r.2.2.1, sp.2.2 + t2.2.2 + r.2.2.2)
    else
      let prev := cs.getD (i - 1) default
      let p2 := collapseS (prev.tail.getD [] ++ sp.1)
      let cs2 := (cs.set (i - 1) (prev.setTail (some p2.1))).eraseIdx i
      let r := applyRemovals rest t cs2
      (r.1, r.2.1, sp.2.1 + p2.2.1 + r.2.2.1, sp.2.2 + p2.2.2 + r.2.2.2)

mutual

/-- `fix_element` of `_fix_odt_xml`: collapse the element's own text, scan the
children (recursing into each before classifying it), then run the scheduled
removals back-to-front.  `none` models a `ValueError` escaping from
`int(raw_c)` on a present but malformed `text:c` attribute. -/
def fixElement : Elem → Option (Elem × Nat × Nat)
  | .mk tag attrs text tl ch =>
    let t1 := collapseO text
    match fixScan 0 ch with
    | none => none
    | some (cs, rem, g2, k2) =>
      let r3 := applyRemovals rem.reverse t1.1 cs
      some (.mk tag attrs r3.1 tl r3.2.1,
            t1.2.1 + g2 + r3.2.2.1, t1.2.2 + k2 + r3.2.2.2)

/-- The forward child scan of `fix_element` (`for i, child in enumerate(parent)`
with `idx` the index of the first element of the remaining list): recurse into
the child, then either schedule a `text:s` child with repeat-count > 1 for
removal — counting one group and `count - 1` characters and capturing its tail
— or keep the child with its tail collapsed. -/
def fixScan (idx : Nat) : List Elem → Option (List Elem × List (Nat × List Char) × Nat × Nat)
  | [] => some ([], [], 0, 0)
  | c :: rest =>
    match fixElement c with
    | none => none
    | some (c1, gc, kc) =>
      if c1.tag = tS then
        match lookupAttr c1.attrs tC with
        | none =>
          let tl2 := collapseO c1.tail
          match fixScan (idx + 1) rest with
          | none => none
          | some (cs, rem, g, k) =>
            some (c1.setTail tl2.1 :: cs, rem, gc + tl2.2.1 + g, kc + tl2.2.2 + k)
        | some raw =>
          match pyInt raw with
          | none => none
          | some n =>
            if 1 < n then
              match fixScan (idx + 1) rest with
              | none => none
              | some (cs, rem, g, k) =>
                some (c1 :: cs, (idx, c1.tail.getD []) :: rem,
                      gc + 1 + g, kc + (n - 1).toNat + k)
            else
              let tl2 := collapseO c1.tail
              match fixScan (idx + 1) rest with
              | none => none
              | some (cs, rem, g, k) =>
                some (c1.setTail tl2.1 :: cs, rem, gc + tl2.2.1 + g, kc + tl2.2.2 + k)
      else
        let tl2 := collapseO c1.tail
        match fixScan (idx + 1) rest with
        | none => none
        | some (cs, rem, g, k) =>
          some (c1.setTail tl2.1 :: cs, rem, gc + tl2.2.1 + g, kc + tl2.2.2 + k)

end

mutual

/-- `_collect` of `_plain_odt`: a `text:s` element renders as
`" " * int(el.get(T_C_ATTR, "1"))` plus its tail (and its content is never
visited); any other element renders as its text, its children's renderings and
its tail.  `none` models `int()` raising on a malformed count. -/
def collectText : Elem → Option (List Char)
  | .mk tag attrs tx tl ch =>
    if tag = tS then
      match pyInt ((lookupAttr attrs tC).getD "1".toList) with
      | none => none
      | some n => some (List.replicate n.toNat ' ' ++ tl.getD [])
    else
      match collectList ch with
      | none => none
      | some inner => some (tx.getD [] ++ inner ++ tl.getD [])

def collectList : List Elem → Option (List Char)
  | [] => some []
  | c :: rest =>
    match collectText c, collectList rest with
    | some a, some b => some (a ++ b)
    | _, _ => none

end

mutual

/-- `root.iter(...)` document order: the element itself, then its descendants. -/
def iterElems : Elem → List Elem
  | .mk t a x l ch => .mk t a x l ch :: iterList ch

def iterList : List Elem → List Elem
  | [] => []
  | c :: rest => iterElems c ++ iterList rest

end

/-- One line of `_plain_odt`: the paragraph's text followed by the rendering of
its children (the paragraph's own tail is not part of its line). -/
def paraLine (p : Elem) : Option (List Char) :=
  match collectList p.children with
  | none => none
  | some inner => some (p.text.getD [] ++ inner)

/-- The newline join of `_plain_odt`'s lines, over possibly-failing lines. -/
def joinNl : List (Option (List Char)) → Option (List Char)
  | [] => some []
  | [l] => l
  | l :: l2 :: rest =>
    match l, joinNl (l2 :: rest) with
    | some a, some b => some (a ++ '\n' :: b)
    | _, _ => none

/-- `_plain_odt`: one line per `text:p` element of `root.iter(T_P)`, joined by
newlines. -/
def plainOdt (root : Elem) : Option (List Char) :=
  joinNl (((iterElems root).filter (fun e => e.tag == tP)).map paraLine)

/-- Index of the last occurrence of `c` in `p` (`str.rfind`), if any. -/
def lastIdxOf (c : Char) (p : List Char) : Option Nat :=
  match p.reverse.findIdx? (fun x => x == c) with
  | none => none
  | some i => some (p.length - 1 - i)

/-- The extension part of `os.path.splitext(p)` (POSIX rules): the suffix from
the last dot, provided that dot lies after the last separator and the basename
has at least one non-dot character before it. -/
def splitextExt (p : List Char) : List Char :=
  match lastIdxOf '.' p with
  | none => []
  | some d =>
    match lastIdxOf '/' p with
    | none =>
      if (p.take d).any (fun c => c != '.') then p.drop d else []
    | some si =>
      if si < d then
        if ((p.drop (si + 1)).take (d - (si + 1))).any (fun c => c != '.') then p.drop d
        else []
      else []

/-- The two dialects `fix_file` can dispatch to. -/
inductive Dialect where
  | docx
  | odt
deriving DecidableEq, Repr

/-- The dispatch decision of `fix_file`: the input path's extension is computed
purely and lower-cased, then matched against `.docx` and `.odt`; `none` models
the `ValueError` raised for anything else, before either dialect pipeline (and
hence any read of the input or write of the output) is invoked. -/
def fixFileDispatch (p : List Char) : Option Dialect :=
  let ext := (splitextExt p).map Char.toLower
  if ext = ".docx".toList then some .docx
  else if ext = ".odt".toList then some .odt
  else none

/-- `s` has no two adjacent space-class characters (no collapsible run). -/
def noRunL : List Char → Bool
  | [] => true
  | [_] => true
  | a :: b :: t => !(isSp a && isSp b) && noRunL (b :: t)

/-- `noRunL` on an optional string. -/
def noRunO : Option (List Char) → Bool
  | none => true
  | some s => noRunL s


/-! ### The spec's view of the Collapser: maximal-run block decompositions.

These definitions are written from the specification's words ("any maximal run
of two or more characters drawn from \x7bspace, nbsp\x7d is replaced by exactly one
space; runs of exactly 1 are untouched"), to be compared with the source's
`EXTRA_SPACE` substitution. -/

/-- A block of a maximal-run decomposition: nonempty, and either entirely
space-class or entirely non-space-class. -/
def homogBlk (b : List Char) : Bool :=
  !b.isEmpty && (b.all isSp || b.all (fun c => !isSp c))

/-- `bs` is a maximal-run decomposition: homogeneous nonempty blocks, adjacent
blocks of different classes (so each space block is a maximal run). -/
def altBlocks : List (List Char) → Bool
  | [] => true
  | [b] => homogBlk b
  | b1 :: b2 :: bs => homogBlk b1 && (b1.all isSp != b2.all isSp) && altBlocks (b2 :: bs)

/-- What the spec says one block becomes: a space run of length ≥ 2 becomes
one ASCII space, anything else is untouched. -/
def collapsedBlk (b : List Char) : List Char :=
  if b.all isSp && 2 ≤ b.length then [' '] else b

/-- The spec's run count for one block. -/
def blkRuns (b : List Char) : Nat :=
  if b.all isSp && 2 ≤ b.length then 1 else 0

/-- The spec's characters-eliminated count for one block (run length − 1). -/
def blkCut (b : List Char) : Nat :=
  if b.all isSp && 2 ≤ b.length then b.length - 1 else 0


/-- The canonical maximal-run decomposition of a string: consecutive
characters of the same space-class are grouped into one block. -/
def blocks : List Char → List (List Char)
  | [] => []
  | c :: rest =>
    match blocks rest with
    | [] => [[c]]
    | [] :: bs => [c] :: [] :: bs
    | (d :: b) :: bs =>
      if isSp c = isSp d then (c :: d :: b) :: bs else [c] :: (d :: b) :: bs

/-- The claim's flag condition for Dialect A: collapsing changed the node's
own text value, and the collapsed value is not equal to its stripped form. -/
def flagCond : Option (List Char) → Bool
  | none => false
  | some s => ((subnSp s).1 != s) && ((subnSp s).1 != pyStrip (subnSp s).1)

/-- A non-root element is an acceptable survivor of `fix_element`: if it is a
`text:s` marker, its repeat-count attribute is absent or parses to ≤ 1. -/
def markerOk (e : Elem) : Bool :=
  if e.tag == tS then
    match lookupAttr e.attrs tC with
    | none => true
    | some v =>
      match pyInt v with
      | none => false
      | some n => decide (n ≤ 1)
  else true

mutual

/-- The invariant `_fix_odt_xml` establishes: the element's text has no
collapsible run, and every child is itself normalized, has a run-free tail
and is not a removable marker. -/
def normElem : Elem → Bool
  | .mk _ _ tx _ ch => noRunO tx && normChildren ch

def normChildren : List Elem → Bool
  | [] => true
  | c :: rest => normElem c && noRunO c.tail && markerOk c && normChildren rest

end

/-- What `fixScan` guarantees of a child it keeps. -/
def Good (e : Elem) : Prop :=
  normElem e = true ∧ noRunO e.tail = true ∧ markerOk e = true

mutual

/-- The invariant `_fix_docx_xml` establishes: every `w:t` element's text and
tail have no collapsible run. -/
def docxNormE : Elem → Bool
  | .mk tag _ tx tl ch =>
    (if tag == wT then noRunO tx && noRunO tl else true) && docxNormL ch

def docxNormL : List Elem → Bool
  | [] => true
  | c :: rest => docxNormE c && docxNormL rest

end

/-- C1/C5 example: a paragraph `X<text:s c="5"/>A<text:s c="5"/>B` — two
adjacent removable markers, each carrying tail text. -/
def adjTree : Elem :=
  .mk "r" [] none none
    [.mk tP [] (some "X".toList) none
      [.mk tS [(tC, "5".toList)] none (some "A".toList) [],
       .mk tS [(tC, "5".toList)] none (some "B".toList) []]]

/-- What `_fix_odt_xml` turns `adjTree` into (the tail `B` is gone). -/
def adjTreeOut : Elem :=
  .mk "r" [] none none [.mk tP [] (some "X A".toList) none []]

/-- C5 example: paragraph `cheers<text:s c="5"/>` with tail `"   erupting"`
(three literal spaces), the spec's marker-plus-literal-run scenario. -/
def mixTree : Elem :=
  .mk "r" [] none none
    [.mk tP [] (some "cheers".toList) none
      [.mk tS [(tC, "5".toList)] none (some "   erupting".toList) []]]

/-- What `_fix_odt_xml` turns `mixTree` into. -/
def mixTreeOut : Elem :=
  .mk "r" [] none none [.mk tP [] (some "cheers erupting".toList) none []]

/-- C4 example: a marker whose repeat-count attribute is present but not a
well-formed integer. -/
def badCountTree : Elem :=
  .mk "r" [] none none [.mk tS [(tC, "x1".toList)] none none []]

/-- The non-whitespace projection of a rendered line. -/
def nonWs (s : List Char) : List Char := s.filter (fun c => !pyIsSpace c)

/-! ### Lemmas about the space-run collapser -/

theorem noRunL_cons_cons (a b : Char) (t : List Char) :
    noRunL (a :: b :: t) = (!(isSp a && isSp b) && noRunL (b :: t)) := rfl

theorem noRunL_tail (a : Char) (t : List Char) (h : noRunL (a :: t) = true) :
    noRunL t = true := by
  cases t with
  | nil => rfl
  | cons b t2 => rw [noRunL_cons_cons, Bool.and_eq_true] at h; exact h.2

theorem noRunL_cons_of (c : Char) (t : List Char) (hc : isSp c = false)
    (ht : noRunL t = true) : noRunL (c :: t) = true := by
  cases t with
  | nil => rfl
  | cons b t2 => rw [noRunL_cons_cons, hc]; simp [ht]

theorem crFlush_len (pend : List Char) : (crFlush pend).1.length ≤ 1 := by
  unfold crFlush
  by_cases h : 2 ≤ pend.length
  · simp [h]
  · simp only [h, if_false]
    omega

theorem crGo_sp_consume (b : List Char) (hb : b.all isSp = true) :
    ∀ pend t, crGo pend (b ++ t) = crGo (pend ++ b) t := by
  induction b with
  | nil => intro pend t; simp
  | cons c b2 ih =>
    intro pend t
    simp only [List.all_cons, Bool.and_eq_true] at hb
    simp only [List.cons_append, crGo, hb.1, if_true]
    rw [show b2.append t = b2 ++ t from rfl, ih hb.2]
    simp

theorem crGo_front_split (pend t : List Char)
    (h : t = [] ∨ ∃ c t2, t = c :: t2 ∧ isSp c = false) :
    crGo pend t = ((crFlush pend).1 ++ (crGo [] t).1, (crFlush pend).2 + (crGo [] t).2) := by
  rcases h with h | ⟨c, t2, rfl, hc⟩
  · subst h
    simp [crGo, crFlush]
  · simp [crGo, hc, crFlush]

theorem crGo_nonsp_consume (b : List Char) (hb : b.all (fun c => !isSp c) = true) :
    ∀ t, crGo [] (b ++ t) = (b ++ (crGo [] t).1, (crGo [] t).2) := by
  induction b with
  | nil => intro t; simp
  | cons c b2 ih =>
    intro t
    simp only [List.all_cons, Bool.and_eq_true] at hb
    have hc : isSp c = false := by
      cases hx : isSp c
      · rfl
      · rw [hx] at hb; exact absurd hb.1 (by simp)
    simp only [List.cons_append, crGo, hc, if_false]
    rw [show b2.append t = b2 ++ t from rfl, ih hb.2]
    simp [crFlush]

theorem crGo_nil (pend : List Char) : crGo pend [] = crFlush pend := rfl

theorem crGo_cons_sp (pend : List Char) (c : Char) (rest : List Char)
    (hc : isSp c = true) : crGo pend (c :: rest) = crGo (pend ++ [c]) rest := by
  simp [crGo, hc]

theorem crGo_cons_nonsp (pend : List Char) (c : Char) (rest : List Char)
    (hc : isSp c = false) :
    crGo pend (c :: rest) =
      ((crFlush pend).1 ++ c :: (crGo [] rest).1, (crFlush pend).2 + (crGo [] rest).2) := by
  simp [crGo, hc]

theorem crFlush_big (pend : List Char) (h : 2 ≤ pend.length) :
    crFlush pend = ([' '], 1) := by
  unfold crFlush; rw [if_pos h]

theorem crFlush_small (pend : List Char) (h : pend.length < 2) :
    crFlush pend = (pend, 0) := by
  unfold crFlush; rw [if_neg (by omega)]

theorem noRunL_append_right (x y : List Char) (h : noRunL (x ++ y) = true) :
    noRunL y = true := by
  induction x with
  | nil => exact h
  | cons a x2 ih => exact ih (noRunL_tail _ _ h)

theorem noRunL_short (l : List Char) (h : l.length ≤ 1) : noRunL l = true := by
  cases l with
  | nil => rfl
  | cons a t =>
    cases t with
    | nil => rfl
    | cons b t2 => simp at h

theorem crGo_noRun_id : ∀ t pend, pend.length ≤ 1 → pend.all isSp = true →
    noRunL (pend ++ t) = true → crGo pend t = (pend ++ t, 0) := by
  intro t
  induction t with
  | nil =>
    intro pend h1 _ _
    rw [crGo_nil, crFlush_small pend (by omega)]
    simp
  | cons c rest ih =>
    intro pend h1 h2 h3
    cases hc : isSp c with
    | true =>
      cases pend with
      | nil =>
        rw [crGo_cons_sp [] c rest hc]
        have := ih [c] (by simp) (by simp [hc]) (by simpa using h3)
        simpa using this
      | cons p pend2 =>
        cases pend2 with
        | cons q r => simp at h1
        | nil =>
          exfalso
          have hp : isSp p = true := by simpa using h2
          rw [List.cons_append, List.nil_append, noRunL_cons_cons, hp, hc] at h3
          simp at h3
    | false =>
      have hrest : noRunL rest = true :=
        noRunL_tail c rest (noRunL_append_right pend (c :: rest) h3)
      rw [crGo_cons_nonsp pend c rest hc, crFlush_small pend (by omega),
        ih [] (by simp) (by simp) (by simpa using hrest)]
      simp

theorem crFlush_len_bound (pend : List Char) :
    (crFlush pend).1.length + (crFlush pend).2 ≤ pend.length := by
  by_cases h : 2 ≤ pend.length
  · rw [crFlush_big pend h]; simp; omega
  · rw [crFlush_small pend (by omega)]; simp

theorem crGo_len : ∀ t pend, (crGo pend t).1.length + (crGo pend t).2 ≤
    pend.length + t.length := by
  intro t
  induction t with
  | nil =>
    intro pend
    rw [crGo_nil]
    simpa using crFlush_len_bound pend
  | cons c rest ih =>
    intro pend
    cases hc : isSp c with
    | true =>
      rw [crGo_cons_sp pend c rest hc]
      have := ih (pend ++ [c])
      simp at this ⊢
      omega
    | false =>
      rw [crGo_cons_nonsp pend c rest hc]
      have h1 := crFlush_len_bound pend
      have h2 := ih []
      simp at h2 ⊢
      omega

theorem crFlush_zero (pend : List Char) (h : (crFlush pend).2 = 0) :
    (crFlush pend).1 = pend := by
  by_cases h2 : 2 ≤ pend.length
  · rw [crFlush_big pend h2] at h; simp at h
  · rw [crFlush_small pend (by omega)]

theorem crGo_zero : ∀ t pend, (crGo pend t).2 = 0 → (crGo pend t).1 = pend ++ t := by
  intro t
  induction t with
  | nil =>
    intro pend h
    rw [crGo_nil] at h ⊢
    rw [crFlush_zero pend h]
    exact (List.append_nil pend).symm
  | cons c rest ih =>
    intro pend h
    cases hc : isSp c with
    | true =>
      rw [crGo_cons_sp pend c rest hc] at h ⊢
      rw [ih _ h]
      simp
    | false =>
      rw [crGo_cons_nonsp pend c rest hc] at h ⊢
      simp only at h
      have hf : (crFlush pend).2 = 0 := by omega
      have hr : (crGo [] rest).2 = 0 := by omega
      simp only [crFlush_zero pend hf, ih [] hr]
      simp

theorem subn_zero_iff (s : List Char) : (subnSp s).2 = 0 ↔ (subnSp s).1 = s := by
  constructor
  · intro h
    simpa using crGo_zero s [] h
  · intro h
    have := crGo_len s []
    unfold subnSp at h
    rw [h] at this
    simp at this
    simpa [subnSp] using this

theorem crGo_noRun : ∀ t pend, noRunL ((crGo pend t).1) = true := by
  intro t
  induction t with
  | nil =>
    intro pend
    rw [crGo_nil]
    exact noRunL_short _ (crFlush_len pend)
  | cons c rest ih =>
    intro pend
    cases hc : isSp c with
    | true =>
      rw [crGo_cons_sp pend c rest hc]
      exact ih _
    | false =>
      rw [crGo_cons_nonsp pend c rest hc]
      have hlen := crFlush_len pend
      have htail : noRunL (c :: (crGo [] rest).1) = true :=
        noRunL_cons_of c _ hc (ih [])
      cases hF : (crFlush pend).1 with
      | nil => simpa using htail
      | cons x xs =>
        cases xs with
        | cons y ys => rw [hF] at hlen; simp at hlen
        | nil =>
          simp only [List.cons_append, List.nil_append]
          rw [noRunL_cons_cons, hc]
          simp [htail]

theorem subn_noRun (s : List Char) : noRunL ((subnSp s).1) = true := crGo_noRun s []

theorem crGo_pos_pend : ∀ t pend, 2 ≤ pend.length → 1 ≤ (crGo pend t).2 := by
  intro t
  induction t with
  | nil =>
    intro pend h
    rw [crGo_nil, crFlush_big pend h]
  | cons c rest ih =>
    intro pend h
    cases hc : isSp c with
    | true =>
      rw [crGo_cons_sp pend c rest hc]
      exact ih _ (by simp; omega)
    | false =>
      rw [crGo_cons_nonsp pend c rest hc, crFlush_big pend h]
      simp

theorem crGo_pos_notNoRun : ∀ t pend, noRunL t = false → 1 ≤ (crGo pend t).2 := by
  intro t
  induction t with
  | nil => intro pend h; simp [noRunL] at h
  | cons c rest ih =>
    intro pend h
    cases hc : isSp c with
    | true =>
      cases rest with
      | nil => simp [noRunL] at h
      | cons b t2 =>
        cases hb : isSp b with
        | true =>
          rw [crGo_cons_sp pend c (b :: t2) hc, crGo_cons_sp _ b t2 hb]
          exact crGo_pos_pend t2 _ (by simp)
        | false =>
          rw [noRunL_cons_cons, hc, hb] at h
          simp at h
          rw [crGo_cons_sp pend c (b :: t2) hc]
          exact ih _ h
    | false =>
      have hr : noRunL rest = false := by
        cases hx : noRunL rest
        · rfl
        · exact absurd (noRunL_cons_of c rest hc hx) (by rw [h]; simp)
      rw [crGo_cons_nonsp pend c rest hc]
      have := ih [] hr
      simp only
      omega

theorem noRun_of_zero (s : List Char) (h : (subnSp s).2 = 0) : noRunL s = true := by
  cases hx : noRunL s
  · have := crGo_pos_notNoRun s [] hx
    unfold subnSp at h
    omega
  · rfl

theorem collapseS_id (s : List Char) (h : noRunL s = true) : collapseS s = (s, 0, 0) := by
  unfold collapseS
  by_cases he : s.isEmpty
  · simp [he]
  · have h1 : crGo [] s = (s, 0) := by
      simpa using crGo_noRun_id s [] (by simp) (by simp) (by simpa using h)
    simp [he, subnSp, h1]

theorem collapseS_noRun (s : List Char) : noRunL ((collapseS s).1) = true := by
  unfold collapseS
  by_cases he : s.isEmpty
  · simp only [he, if_true]
    have h0 : s = [] := by simpa using he
    subst h0
    rfl
  · simp only [he, if_false]
    exact subn_noRun s

theorem collapseO_id (v : Option (List Char)) (h : noRunO v = true) :
    collapseO v = (v, 0, 0) := by
  cases v with
  | none => rfl
  | some s => simp [collapseO, collapseS_id s (by simpa [noRunO] using h)]

theorem collapseO_noRun (v : Option (List Char)) : noRunO ((collapseO v).1) = true := by
  cases v with
  | none => rfl
  | some s => simpa [collapseO, noRunO] using collapseS_noRun s

theorem altBlocks_cons (b : List Char) (bs : List (List Char))
    (h : altBlocks (b :: bs) = true) :
    homogBlk b = true ∧ altBlocks bs = true ∧
      (bs = [] ∨ ∃ b2 bs2, bs = b2 :: bs2 ∧ ¬(b.all isSp = b2.all isSp)) := by
  cases bs with
  | nil => exact ⟨h, rfl, Or.inl rfl⟩
  | cons b2 bs2 =>
    rw [show altBlocks (b :: b2 :: bs2) =
        (homogBlk b && (b.all isSp != b2.all isSp) && altBlocks (b2 :: bs2)) from rfl] at h
    simp only [Bool.and_eq_true, bne_iff_ne, ne_eq] at h
    exact ⟨h.1.1, h.2, Or.inr ⟨b2, bs2, rfl, h.1.2⟩⟩

theorem homog_nonsp_head (b : List Char) (hh : homogBlk b = true)
    (hs : b.all isSp = false) : ∃ c cs, b = c :: cs ∧ isSp c = false := by
  unfold homogBlk at hh
  simp only [Bool.and_eq_true, Bool.or_eq_true] at hh
  rcases hh with ⟨hne, hcl | hcl⟩
  · rw [hcl] at hs; cases hs
  · cases b with
    | nil => simp at hne
    | cons c cs =>
      simp only [List.all_cons, Bool.and_eq_true] at hcl
      refine ⟨c, cs, rfl, ?_⟩
      cases hx : isSp c
      · rfl
      · rw [hx] at hcl; exact absurd hcl.1 (by simp)

theorem crFlush_block (b : List Char) (hb : b.all isSp = true) ( _hne : b ≠ []) :
    crFlush b = (collapsedBlk b, blkRuns b) := by
  unfold collapsedBlk blkRuns
  by_cases h2 : 2 ≤ b.length
  · rw [crFlush_big b h2, hb]
    simp [h2]
  · rw [crFlush_small b (by omega), hb]
    simp [h2]

theorem subn_blocks : ∀ bs, altBlocks bs = true →
    subnSp bs.flatten = ((bs.map collapsedBlk).flatten, (bs.map blkRuns).sum) := by
  intro bs
  induction bs with
  | nil => intro _; rfl
  | cons b bs ih =>
    intro h
    obtain ⟨hhb, halt, hnext⟩ := altBlocks_cons b bs h
    have hne : b ≠ [] := by
      unfold homogBlk at hhb
      simp only [Bool.and_eq_true] at hhb
      simpa using hhb.1
    have hcl : b.all isSp = true ∨ b.all (fun c => !isSp c) = true := by
      unfold homogBlk at hhb
      simp only [Bool.and_eq_true, Bool.or_eq_true] at hhb
      exact hhb.2
    rcases hcl with hsp | hnsp
    · -- space-class block: consumed into the pending run, then flushed
      have step1 : crGo [] (b ++ bs.flatten) = crGo b bs.flatten := by
        have := crGo_sp_consume b hsp [] bs.flatten
        simpa using this
      have front : bs.flatten = [] ∨ ∃ c t2, bs.flatten = c :: t2 ∧ isSp c = false := by
        rcases hnext with rfl | ⟨b2, bs2, rfl, hdiff⟩
        · exact Or.inl rfl
        · have hb2 : b2.all isSp = false := by
            cases hx : b2.all isSp
            · rfl
            · rw [hsp, hx] at hdiff; exact absurd rfl hdiff
          have hh2 : homogBlk b2 = true := (altBlocks_cons b2 bs2 halt).1
          obtain ⟨c, cs, rfl, hc⟩ := homog_nonsp_head b2 hh2 hb2
          exact Or.inr ⟨c, cs ++ bs2.flatten, by simp, hc⟩
      have split := crGo_front_split b bs.flatten (by
        rcases front with h0 | ⟨c, t2, he, hc⟩
        · exact Or.inl h0
        · exact Or.inr ⟨c, t2, he, hc⟩)
      unfold subnSp at ih ⊢
      rw [List.flatten_cons, step1, split, ih halt, crFlush_block b hsp hne]
      simp
    · -- non-space block: passed through unchanged
      have hall : b.all isSp = false := by
        obtain ⟨c, cs, rfl, hc⟩ := homog_nonsp_head b hhb (by
          cases hx : b.all isSp
          · rfl
          · -- b nonempty, all space and all non-space: contradiction
            cases b with
            | nil => exact absurd rfl hne
            | cons c0 cs0 =>
              simp only [List.all_cons, Bool.and_eq_true] at hx hnsp
              rw [hx.1] at hnsp
              exact absurd hnsp.1 (by simp))
        simp [hc]
      have step := crGo_nonsp_consume b hnsp bs.flatten
      unfold subnSp at ih ⊢
      rw [List.flatten_cons, step, ih halt]
      have hcb : collapsedBlk b = b := by unfold collapsedBlk; rw [hall]; simp
      have hrb : blkRuns b = 0 := by unfold blkRuns; rw [hall]; simp
      simp [hcb, hrb]

theorem collapsedBlk_len (b : List Char) (hne : b ≠ []) :
    (collapsedBlk b).length + blkCut b = b.length := by
  have hpos : 1 ≤ b.length := by
    cases b with
    | nil => exact absurd rfl hne
    | cons c cs => simp
  unfold collapsedBlk blkCut
  by_cases h : b.all isSp && 2 ≤ b.length
  · simp only [h, if_true]
    simp only [Bool.and_eq_true, decide_eq_true_eq] at h
    simp
    omega
  · simp [h]

theorem blocks_len : ∀ bs, altBlocks bs = true →
    ((bs.map collapsedBlk).flatten).length + (bs.map blkCut).sum = (bs.flatten).length := by
  intro bs
  induction bs with
  | nil => intro _; rfl
  | cons b bs ih =>
    intro h
    obtain ⟨hhb, halt, _⟩ := altBlocks_cons b bs h
    have hne : b ≠ [] := by
      unfold homogBlk at hhb
      simp only [Bool.and_eq_true] at hhb
      simpa using hhb.1
    have := collapsedBlk_len b hne
    have hrec := ih halt
    simp only [List.map_cons, List.flatten_cons, List.length_append, List.sum_cons]
    omega

/-! ### Unfolding equations for the ODT normalizer -/

theorem fixElement_none (tag : String) (attrs : List (String × List Char))
    (tx tl : Option (List Char)) (ch : List Elem) (h : fixScan 0 ch = none) :
    fixElement (.mk tag attrs tx tl ch) = none := by
  simp [fixElement, h]

theorem fixElement_some (tag : String) (attrs : List (String × List Char))
    (tx tl : Option (List Char)) (ch : List Elem)
    (cs : List Elem) (rem : List (Nat × List Char)) (g2 k2 : Nat)
    (h : fixScan 0 ch = some (cs, rem, g2, k2)) :
    fixElement (.mk tag attrs tx tl ch) =
      some (.mk tag attrs (applyRemovals rem.reverse (collapseO tx).1 cs).1 tl
              (applyRemovals rem.reverse (collapseO tx).1 cs).2.1,
            (collapseO tx).2.1 + g2 + (applyRemovals rem.reverse (collapseO tx).1 cs).2.2.1,
            (collapseO tx).2.2 + k2 + (applyRemovals rem.reverse (collapseO tx).1 cs).2.2.2) := by
  simp [fixElement, h]

theorem fixScan_nil (idx : Nat) : fixScan idx [] = some ([], [], 0, 0) := rfl

theorem fixScan_cons_none (idx : Nat) (c : Elem) (rest : List Elem)
    (h : fixElement c = none) : fixScan idx (c :: rest) = none := by
  simp [fixScan, h]

theorem fixScan_cons_sched (idx : Nat) (c : Elem) (rest : List Elem)
    (c1 : Elem) (gc kc : Nat) (v : List Char) (n : Int)
    (hfe : fixElement c = some (c1, gc, kc))
    (htag : c1.tag = tS) (hv : lookupAttr c1.attrs tC = some v)
    (hn : pyInt v = some n) (h1 : 1 < n) :
    fixScan idx (c :: rest) =
      match fixScan (idx + 1) rest with
      | none => none
      | some (cs, rem, g, k) =>
        some (c1 :: cs, (idx, c1.tail.getD []) :: rem,
              gc + 1 + g, kc + (n - 1).toNat + k) := by
  simp [fixScan, hfe, htag, hv, hn, h1]

theorem fixScan_cons_raise (idx : Nat) (c : Elem) (rest : List Elem)
    (c1 : Elem) (gc kc : Nat) (v : List Char)
    (hfe : fixElement c = some (c1, gc, kc))
    (htag : c1.tag = tS) (hv : lookupAttr c1.attrs tC = some v)
    (hn : pyInt v = none) :
    fixScan idx (c :: rest) = none := by
  simp [fixScan, hfe, htag, hv, hn]

theorem fixScan_cons_keep (idx : Nat) (c : Elem) (rest : List Elem)
    (c1 : Elem) (gc kc : Nat)
    (hfe : fixElement c = some (c1, gc, kc))
    (hkeep : c1.tag ≠ tS ∨ lookupAttr c1.attrs tC = none ∨
             ∃ v n, lookupAttr c1.attrs tC = some v ∧ pyInt v = some n ∧ ¬ 1 < n) :
    fixScan idx (c :: rest) =
      match fixScan (idx + 1) rest with
      | none => none
      | some (cs, rem, g, k) =>
        some (c1.setTail (collapseO c1.tail).1 :: cs, rem,
              gc + (collapseO c1.tail).2.1 + g, kc + (collapseO c1.tail).2.2 + k) := by
  rcases hkeep with hne | habs | ⟨v, n, hv, hn, hlt⟩
  · simp [fixScan, hfe, hne]
  · by_cases htag : c1.tag = tS
    · simp [fixScan, hfe, htag, habs]
    · simp [fixScan, hfe, htag]
  · by_cases htag : c1.tag = tS
    · simp [fixScan, hfe, htag, hv, hn, hlt]
    · simp [fixScan, hfe, htag]

theorem fixElement_tag_attrs (e : Elem) (r : Elem × Nat × Nat)
    (h : fixElement e = some r) :
    r.1.tag = e.tag ∧ r.1.attrs = e.attrs ∧ r.1.tail = e.tail := by
  cases e with
  | mk tag attrs tx tl ch =>
    cases hs : fixScan 0 ch with
    | none => rw [fixElement_none tag attrs tx tl ch hs] at h; cases h
    | some res =>
      obtain ⟨cs, rem, g2, k2⟩ := res
      rw [fixElement_some tag attrs tx tl ch cs rem g2 k2 hs] at h
      cases h
      exact ⟨rfl, rfl, rfl⟩

theorem blocks_ne_nil : ∀ (str : List Char), [] ∉ blocks str := by
  intro str
  induction str with
  | nil => simp [blocks]
  | cons c rest ih =>
    simp only [blocks]
    cases hb : blocks rest with
    | nil => simp
    | cons b0 bs =>
      cases b0 with
      | nil => rw [hb] at ih; exact absurd (List.mem_cons_self _ _) ih
      | cons d b =>
        rw [hb] at ih
        by_cases hc : isSp c = isSp d
        · simp only [hc, if_true]
          intro hmem
          rcases List.mem_cons.mp hmem with h0 | h0
          · cases h0
          · exact ih (List.mem_cons_of_mem _ h0)
        · simp only [hc, if_false]
          intro hmem
          rcases List.mem_cons.mp hmem with h0 | h0
          · cases h0
          · exact ih h0

theorem blocks_flatten : ∀ (str : List Char), (blocks str).flatten = str := by
  intro str
  induction str with
  | nil => rfl
  | cons c rest ih =>
    simp only [blocks]
    cases hb : blocks rest with
    | nil =>
      rw [hb] at ih
      simp at ih
      simp [← ih]
    | cons b0 bs =>
      cases b0 with
      | nil => exact absurd (hb ▸ List.mem_cons_self ([] : List Char) bs) (blocks_ne_nil rest)
      | cons d b =>
        rw [hb] at ih
        by_cases hc : isSp c = isSp d
        · simp only [hc, if_true, List.flatten_cons]
          simp only [List.flatten_cons] at ih
          simp [ih]
        · simp only [hc, if_false, List.flatten_cons]
          simp only [List.flatten_cons] at ih
          simp [ih]

theorem homog_all_head (d : Char) (b : List Char) (hh : homogBlk (d :: b) = true) :
    (d :: b).all isSp = isSp d := by
  unfold homogBlk at hh
  simp only [Bool.and_eq_true, Bool.or_eq_true] at hh
  rcases hh with ⟨_, hall | hall⟩
  · rw [hall]
    simp only [List.all_cons, Bool.and_eq_true] at hall
    exact hall.1.symm
  · have hd : isSp d = false := by
      simp only [List.all_cons, Bool.and_eq_true] at hall
      cases hx : isSp d
      · rfl
      · rw [hx] at hall; exact absurd hall.1 (by simp)
    rw [hd]
    simp only [List.all_cons, hd]
    simp

theorem homogBlk_single (c : Char) : homogBlk [c] = true := by
  unfold homogBlk
  cases hx : isSp c <;> simp [hx]

theorem blocks_alt : ∀ (str : List Char), altBlocks (blocks str) = true := by
  intro str
  induction str with
  | nil => rfl
  | cons c rest ih =>
    simp only [blocks]
    cases hb : blocks rest with
    | nil => exact homogBlk_single c
    | cons b0 bs =>
      cases b0 with
      | nil => exact absurd (hb ▸ List.mem_cons_self ([] : List Char) bs) (blocks_ne_nil rest)
      | cons d b =>
        rw [hb] at ih
        have hhd : homogBlk (d :: b) = true := (altBlocks_cons _ _ ih).1
        by_cases hc : isSp c = isSp d
        · simp only [hc, if_true]
          -- extended block is homogeneous of the same class
          have hcls : (c :: d :: b).all isSp = (d :: b).all isSp := by
            simp only [List.all_cons]
            rw [hc]
            cases hx : isSp d <;> simp [hx]
          have hhom : homogBlk (c :: d :: b) = true := by
            unfold homogBlk at hhd ⊢
            simp only [Bool.and_eq_true, Bool.or_eq_true] at hhd ⊢
            rcases hhd with ⟨_, hall | hall⟩
            · refine ⟨by simp, Or.inl ?_⟩
              have hcd : isSp c = true := by
                rw [hc]
                simp only [List.all_cons, Bool.and_eq_true] at hall
                exact hall.1
              simp [List.all_cons, hcd, hall]
            · refine ⟨by simp, Or.inr ?_⟩
              have hcd : isSp c = false := by
                rw [hc]
                simp only [List.all_cons, Bool.and_eq_true] at hall
                have := hall.1
                cases hx : isSp d
                · rfl
                · rw [hx] at this; exact absurd this (by simp)
              simp only [List.all_cons, Bool.and_eq_true]
              refine ⟨by simp [hcd], ?_⟩
              simpa using hall
          -- alternation with the following block is inherited
          cases bs with
          | nil => exact hhom
          | cons b2 bs2 =>
            rw [show altBlocks ((c :: d :: b) :: b2 :: bs2) =
                (homogBlk (c :: d :: b) && ((c :: d :: b).all isSp != b2.all isSp) &&
                 altBlocks (b2 :: bs2)) from rfl]
            rw [show altBlocks ((d :: b) :: b2 :: bs2) =
                (homogBlk (d :: b) && ((d :: b).all isSp != b2.all isSp) &&
                 altBlocks (b2 :: bs2)) from rfl] at ih
            simp only [Bool.and_eq_true] at ih ⊢
            exact ⟨⟨hhom, by rw [hcls]; exact ih.1.2⟩, ih.2⟩
        · simp only [hc, if_false]
          rw [show altBlocks ([c] :: (d :: b) :: bs) =
              (homogBlk [c] && ([c].all isSp != (d :: b).all isSp) &&
               altBlocks ((d :: b) :: bs)) from rfl]
          simp only [Bool.and_eq_true]
          refine ⟨⟨homogBlk_single c, ?_⟩, ih⟩
          rw [homog_all_head d b hhd]
          simp only [List.all_cons, List.all_nil, Bool.and_true]
          simpa using hc

/-! ### Claim C3: run collapsing correctness -/

/-- C3: the Space-Run Collapser maps every maximal run of ≥ 2 space/nbsp
characters to exactly one ASCII space, leaves runs of exactly one untouched,
leaves the empty and the absent string unchanged with zero reported runs, and
reports eliminated characters equal to the sum of (run length − 1) over the
runs.  Stated over every maximal-run block decomposition, together with the
fact that every string has one (its canonical `blocks` decomposition). -/
theorem C3_run_collapsing :
    collapseO none = (none, 0, 0) ∧ collapseO (some []) = (some [], 0, 0) ∧
    (∀ bs, altBlocks bs = true →
      collapseS bs.flatten =
        ((bs.map collapsedBlk).flatten, (bs.map blkRuns).sum, (bs.map blkCut).sum)) ∧
    ∀ s : List Char, altBlocks (blocks s) = true ∧ (blocks s).flatten = s := by
  refine ⟨rfl, rfl, ?_, fun s => ⟨blocks_alt s, blocks_flatten s⟩⟩
  intro bs halt
  cases bs with
  | nil => rfl
  | cons b bs2 =>
    have hhb : homogBlk b = true := (altBlocks_cons b bs2 halt).1
    have hne : b ≠ [] := by
      unfold homogBlk at hhb
      simp only [Bool.and_eq_true] at hhb
      simpa using hhb.1
    have hjne : ((b :: bs2).flatten).isEmpty = false := by
      cases b with
      | nil => exact absurd rfl hne
      | cons c cs => simp
    have hsub := subn_blocks (b :: bs2) halt
    have hlen := blocks_len (b :: bs2) halt
    unfold collapseS
    rw [hjne]
    simp only [Bool.false_eq_true, if_false, hsub]
    rw [show (b :: bs2).flatten.length -
        (List.map collapsedBlk (b :: bs2)).flatten.length =
        (List.map blkCut (b :: bs2)).sum from by omega]

/-- Witness for C3 at the concrete decomposition `["ab", "  ", "c"]`. -/
theorem C3_run_collapsing_witness :
    altBlocks ["ab".toList, "  ".toList, "c".toList] = true ∧
    collapseS "ab  c".toList = ("ab c".toList, 1, 1) := by
  refine ⟨by decide, ?_⟩
  have h := C3_run_collapsing.2.2.1 ["ab".toList, "  ".toList, "c".toList] (by decide)
  exact h

/-! ### Claim C1: content preservation fails on adjacent removable markers -/

/-- C1 (code bug): on `adjTree` — two adjacent removable markers — the
normalizer loses the second marker's tail text `B`: the plain-text projection
has non-whitespace characters `XAB` before and only `XA` after. -/
theorem C1_content_loss :
    fixElement adjTree = some (adjTreeOut, 2, 8) ∧
    (plainOdt adjTree).map nonWs = some "XAB".toList ∧
    (plainOdt adjTreeOut).map nonWs = some "XA".toList ∧
    (plainOdt adjTree).map nonWs ≠ (plainOdt adjTreeOut).map nonWs := by
  refine ⟨rfl, rfl, rfl, ?_⟩
  decide

/-! ### Claim C5: the marker + literal-run scenario -/

/-- C5 counterexample: the claimed combined character-removed total of 6 is
wrong — the code reports (2 runs, 7 characters) on the count=5 marker whose
tail begins with three literal spaces, because the injected space joins the
three-space literal run (a run of four, removing three). -/
theorem C5_counterexample :
    fixElement mixTree = some (mixTreeOut, 2, 7) ∧ (7 : Nat) ≠ 6 := by
  exact ⟨rfl, by decide⟩

/-- C5 amended: the scenario produces a single merged space, no double-space
artifact, 2 runs collapsed and 7 = (5−1)+((1+3)−1) characters removed. -/
theorem C5_amended :
    fixElement mixTree = some (mixTreeOut, 2, 7) ∧
    plainOdt mixTreeOut = some "cheers erupting".toList := ⟨rfl, rfl⟩

/-! ### Claim C4: malformed repeat-count raises -/

theorem fixScan_tail_none (idx : Nat) (c : Elem) (rest : List Elem)
    (h : fixScan (idx + 1) rest = none) : fixScan idx (c :: rest) = none := by
  cases hfe : fixElement c with
  | none => exact fixScan_cons_none idx c rest hfe
  | some r =>
    obtain ⟨c1, gc, kc⟩ := r
    by_cases htag : c1.tag = tS
    · cases hv : lookupAttr c1.attrs tC with
      | none =>
        rw [fixScan_cons_keep idx c rest c1 gc kc hfe (Or.inr (Or.inl hv)), h]
      | some v =>
        cases hn : pyInt v with
        | none => exact fixScan_cons_raise idx c rest c1 gc kc v hfe htag hv hn
        | some n =>
          by_cases h1 : 1 < n
          · rw [fixScan_cons_sched idx c rest c1 gc kc v n hfe htag hv hn h1, h]
          · rw [fixScan_cons_keep idx c rest c1 gc kc hfe
              (Or.inr (Or.inr ⟨v, n, hv, hn, h1⟩)), h]
    · rw [fixScan_cons_keep idx c rest c1 gc kc hfe (Or.inl htag), h]

theorem fixScan_bad : ∀ (ch : List Elem) (idx : Nat) (c : Elem), c ∈ ch →
    c.tag = tS → ∀ v, lookupAttr c.attrs tC = some v → pyInt v = none →
    fixScan idx ch = none := by
  intro ch
  induction ch with
  | nil => intro idx c hc; simp at hc
  | cons d rest ih =>
    intro idx c hc htag v hv hpi
    rcases List.mem_cons.mp hc with rfl | hmem
    · cases hfe : fixElement c with
      | none => exact fixScan_cons_none idx c rest hfe
      | some r =>
        obtain ⟨c1, gc, kc⟩ := r
        obtain ⟨ht1, ha1, _⟩ := fixElement_tag_attrs c (c1, gc, kc) hfe
        exact fixScan_cons_raise idx c rest c1 gc kc v hfe (ht1.trans htag)
          (ha1 ▸ hv) hpi
    · exact fixScan_tail_none idx d rest (ih (idx + 1) c hmem htag v hv hpi)

/-- C4 counterexample: a present but malformed repeat-count attribute makes
the normalizer raise (`none`), contradicting "never raises". -/
theorem C4_counterexample : fixElement badCountTree = none := rfl

/-- C4 amended: a marker with an absent repeat-count attribute is treated as
count = 1 — retained, tail collapsed normally — but a present malformed
repeat-count value makes `int()` raise, aborting the whole normalization. -/
theorem C4_amended :
    (∀ (parent : Elem) (c : Elem), c ∈ parent.children → c.tag = tS →
       ∀ v, lookupAttr c.attrs tC = some v → pyInt v = none →
       fixElement parent = none) ∧
    (∀ (idx : Nat) (c : Elem) (rest : List Elem) (c1 : Elem) (gc kc : Nat)
       (cs : List Elem) (rem : List (Nat × List Char)) (g k : Nat),
       fixElement c = some (c1, gc, kc) →
       c1.tag = tS → lookupAttr c1.attrs tC = none →
       fixScan (idx + 1) rest = some (cs, rem, g, k) →
       fixScan idx (c :: rest) =
         some (c1.setTail (collapseO c1.tail).1 :: cs, rem,
               gc + (collapseO c1.tail).2.1 + g, kc + (collapseO c1.tail).2.2 + k)) := by
  constructor
  · intro parent c hc htag v hv hpi
    cases parent with
    | mk tag attrs tx tl ch =>
      exact fixElement_none tag attrs tx tl ch
        (fixScan_bad ch 0 c hc htag v hv hpi)
  · intro idx c rest c1 gc kc cs rem g k hfe htag habs hscan
    rw [fixScan_cons_keep idx c rest c1 gc kc hfe (Or.inr (Or.inl habs)), hscan]

/-- Witness for C4's amended statement at concrete inputs. -/
theorem C4_amended_witness :
    fixElement badCountTree = none ∧
    fixScan 0 [Elem.mk tS [] none (some "a  b".toList) []] =
      some ([Elem.mk tS [] none (some "a b".toList) []], [], 1, 1) := by
  constructor
  · exact C4_amended.1 badCountTree (.mk tS [(tC, "x1".toList)] none none [])
      (by simp [badCountTree, Elem.children]) rfl ("x1".toList) rfl rfl
  · have h := C4_amended.2 0 (.mk tS [] none (some "a  b".toList) [])
      [] (.mk tS [] none (some "a  b".toList) []) 0 0 [] [] 0 0 rfl rfl rfl rfl
    exact h

/-! ### Claim C6: the whitespace-preservation flag -/

theorem fixDocxTree_wt_attrs (attrs : List (String × List Char))
    (tx tl : Option (List Char)) (ch : List Elem) :
    (fixDocxTree (.mk wT attrs tx tl ch)).1.attrs =
      (if (fixTextAttr tx).2.2.2 &&
          !(((fixTextAttr tx).1.getD []) == pyStrip ((fixTextAttr tx).1.getD [])) then
        setAttr attrs xmlSpaceKey "preserve".toList else attrs) := by
  simp [fixDocxTree, Elem.attrs]

/-- C6: on a `w:t` node, Dialect A sets `xml:space="preserve"` exactly when
collapsing changed the node's own text value and the collapsed value differs
from its trimmed form; a tail change alone never touches the attributes (the
result's attributes do not depend on the tail at all). -/
theorem C6_preserve_flag (tag : String) (attrs : List (String × List Char))
    (tx tl : Option (List Char)) (ch : List Elem) (htag : tag = wT) :
    (fixDocxTree (.mk tag attrs tx tl ch)).1.attrs =
      (if flagCond tx then setAttr attrs xmlSpaceKey "preserve".toList else attrs) := by
  subst htag
  rw [fixDocxTree_wt_attrs]
  cases tx with
  | none => simp [fixTextAttr, flagCond]
  | some s =>
    by_cases he : s.isEmpty
    · have h0 : s = [] := by simpa using he
      subst h0
      simp [fixTextAttr, flagCond, subnSp, crGo, crFlush]
    · by_cases hz : (subnSp s).2 = 0
      · have hid : (subnSp s).1 = s := (subn_zero_iff s).mp hz
        have hfc : flagCond (some s) = false := by
          simp only [flagCond, hid]
          simp
        have hft : fixTextAttr (some s) = (some s, 0, 0, false) := by
          simp [fixTextAttr, he, hz]
        rw [hft, hfc]
        simp
      · have hne : (subnSp s).1 ≠ s := fun hx => hz ((subn_zero_iff s).mpr hx)
        have hb : ((subnSp s).1 != s) = true := by simpa using hne
        have hft : fixTextAttr (some s) =
            (some (subnSp s).1, (subnSp s).2, s.length - (subnSp s).1.length, true) := by
          simp [fixTextAttr, he, hz]
        rw [hft]
        simp only [flagCond, hb, Bool.true_and, Option.getD_some]
        by_cases hstrip : (subnSp s).1 = pyStrip (subnSp s).1
        · have hbeq : ((subnSp s).1 == pyStrip (subnSp s).1) = true := by
            rw [← hstrip]
            exact beq_self_eq_true _
          simp [hbeq, bne]
        · have hbeq : ((subnSp s).1 == pyStrip (subnSp s).1) = false := by
            simpa using hstrip
          simp [hbeq, bne]

/-- Witness for C6 at a `w:t` node whose text collapses and keeps a trailing
space. -/
theorem C6_preserve_flag_witness :
    (fixDocxTree (.mk wT [] (some "a  b ".toList) none [])).1.attrs =
      (if flagCond (some "a  b ".toList) then
        setAttr [] xmlSpaceKey "preserve".toList else []) :=
  C6_preserve_flag wT [] (some "a  b ".toList) none [] rfl

/-! ### Claims C8 and C10: fix_file dispatch -/

/-- C8: a path whose lower-cased extension is neither `.docx` nor `.odt` makes
`fix_file` raise `ValueError` immediately; neither dialect pipeline (and hence
no input read or output write) is invoked. -/
theorem C8_unsupported (p : List Char)
    (h1 : (splitextExt p).map Char.toLower ≠ ".docx".toList)
    (h2 : (splitextExt p).map Char.toLower ≠ ".odt".toList) :
    fixFileDispatch p = none := by
  simp only [fixFileDispatch]
  rw [if_neg h1, if_neg h2]

/-- Witness for C8 on `notes.txt`. -/
theorem C8_unsupported_witness :
    (splitextExt "notes.txt".toList).map Char.toLower ≠ ".docx".toList ∧
    (splitextExt "notes.txt".toList).map Char.toLower ≠ ".odt".toList ∧
    fixFileDispatch "notes.txt".toList = none :=
  ⟨by decide, by decide, C8_unsupported _ (by decide) (by decide)⟩

/-- C10: `fix_file` matches the extension case-insensitively — any path whose
extension lower-cases to `.docx` (resp. `.odt`) is dispatched to the DOCX
(resp. ODT) pipeline rather than rejected. -/
theorem C10_case_insensitive (p : List Char) :
    ((splitextExt p).map Char.toLower = ".docx".toList →
      fixFileDispatch p = some Dialect.docx) ∧
    ((splitextExt p).map Char.toLower = ".odt".toList →
      fixFileDispatch p = some Dialect.odt) := by
  constructor
  · intro h
    simp only [fixFileDispatch]
    rw [if_pos h]
  · intro h
    have hne : (splitextExt p).map Char.toLower ≠ ".docx".toList := by
      rw [h]
      decide
    simp only [fixFileDispatch]
    rw [if_neg hne, if_pos h]

/-- Witness for C10 on upper- and mixed-case extensions. -/
theorem C10_case_insensitive_witness :
    fixFileDispatch "/docs/Report.DOCX".toList = some Dialect.docx ∧
    fixFileDispatch "b.Odt".toList = some Dialect.odt :=
  ⟨(C10_case_insensitive _).1 (by decide), (C10_case_insensitive _).2 (by decide)⟩

/-! ### Claim C2: marker scheduling and removal mechanics -/

/-- C2: a `text:s` child whose repeat-count parses to `n > 1` is scheduled
with its index and captured tail, counting exactly one run and `n − 1`
characters at that moment; the removal pass then walks the schedule in
reverse index order, splices `collapse(" " + tail)` — collapsed again after
concatenation — into the parent's text (index 0) or the previous sibling's
tail (index > 0), and detaches the child at that index. -/
theorem C2_marker_mechanics :
    (∀ (idx : Nat) (c : Elem) (rest : List Elem) (c1 : Elem) (gc kc : Nat)
       (cs : List Elem) (rem : List (Nat × List Char)) (g k : Nat)
       (v : List Char) (n : Int),
       fixElement c = some (c1, gc, kc) →
       c1.tag = tS → lookupAttr c1.attrs tC = some v → pyInt v = some n → 1 < n →
       fixScan (idx + 1) rest = some (cs, rem, g, k) →
       fixScan idx (c :: rest) =
         some (c1 :: cs, (idx, c1.tail.getD []) :: rem,
               gc + 1 + g, kc + (n - 1).toNat + k)) ∧
    (∀ (tl : List Char) (rest : List (Nat × List Char)) (t : Option (List Char))
       (cs : List Elem),
       applyRemovals ((0, tl) :: rest) t cs =
         (let sp := collapseS (' ' :: tl)
          let t2 := collapseS (t.getD [] ++ sp.1)
          let r := applyRemovals rest (some t2.1) (cs.eraseIdx 0)
          (r.1, r.2.1, sp.2.1 + t2.2.1 + r.2.2.1, sp.2.2 + t2.2.2 + r.2.2.2))) ∧
    (∀ (i : Nat) (tl : List Char) (rest : List (Nat × List Char))
       (t : Option (List Char)) (cs : List Elem), i ≠ 0 →
       applyRemovals ((i, tl) :: rest) t cs =
         (let sp := collapseS (' ' :: tl)
          let prev := cs.getD (i - 1) default
          let p2 := collapseS (prev.tail.getD [] ++ sp.1)
          let r := applyRemovals rest t
            ((cs.set (i - 1) (prev.setTail (some p2.1))).eraseIdx i)
          (r.1, r.2.1, sp.2.1 + p2.2.1 + r.2.2.1, sp.2.2 + p2.2.2 + r.2.2.2))) := by
  refine ⟨?_, ?_, ?_⟩
  · intro idx c rest c1 gc kc cs rem g k v n hfe htag hv hn h1 hscan
    rw [fixScan_cons_sched idx c rest c1 gc kc v n hfe htag hv hn h1, hscan]
  · intro tl rest t cs
    simp [applyRemovals]
  · intro i tl rest t cs hi
    simp [applyRemovals, hi]

/-- Witness for C2: a count=3 marker with tail `z` is scheduled with one run
and two characters; concrete removal steps for index 0 and index 1. -/
theorem C2_marker_mechanics_witness :
    fixScan 0 [Elem.mk tS [(tC, "3".toList)] none (some "z".toList) []] =
      some ([Elem.mk tS [(tC, "3".toList)] none (some "z".toList) []],
            [(0, "z".toList)], 1, 2) ∧
    applyRemovals [(0, "z".toList)] (some "w".toList) [default] =
      (some "w z".toList, [], 0, 0) ∧
    applyRemovals [(1, "q".toList)] none [Elem.mk "u" [] none (some "v".toList) [], default] =
      (none, [Elem.mk "u" [] none (some "v q".toList) []], 0, 0) := by
  refine ⟨?_, ?_, ?_⟩
  · exact C2_marker_mechanics.1 0 (Elem.mk tS [(tC, "3".toList)] none (some "z".toList) [])
      [] (Elem.mk tS [(tC, "3".toList)] none (some "z".toList) []) 0 0 [] [] 0 0
      ("3".toList) 3 rfl rfl rfl rfl (by decide) rfl
  · exact C2_marker_mechanics.2.1 ("z".toList) [] (some "w".toList) [default]
  · exact C2_marker_mechanics.2.2 1 ("q".toList) [] none
      [Elem.mk "u" [] none (some "v".toList) [], default] (by decide)

/-! ### Index bookkeeping for the removal pass -/

theorem getD_eraseIdx_lt : ∀ (l : List Elem) (i j : Nat), j < i →
    (l.eraseIdx i).getD j default = l.getD j default := by
  intro l
  induction l with
  | nil => intro i j _; rfl
  | cons a l ih =>
    intro i j hj
    cases i with
    | zero => omega
    | succ i2 =>
      cases j with
      | zero => rfl
      | succ j2 =>
        simp only [List.eraseIdx_cons_succ, List.getD_cons_succ]
        exact ih i2 j2 (by omega)

theorem getD_eraseIdx_ge : ∀ (l : List Elem) (i j : Nat), i ≤ j → i < l.length →
    (l.eraseIdx i).getD j default = l.getD (j + 1) default := by
  intro l
  induction l with
  | nil => intro i j _ h; simp at h
  | cons a l ih =>
    intro i j hij hi
    cases i with
    | zero => simp [List.eraseIdx_cons_zero]
    | succ i2 =>
      cases j with
      | zero => omega
      | succ j2 =>
        simp only [List.eraseIdx_cons_succ, List.getD_cons_succ]
        exact ih i2 j2 (by omega) (by simpa using Nat.lt_of_succ_lt_succ hi)

theorem getD_set_eq : ∀ (l : List Elem) (i : Nat) (x : Elem), i < l.length →
    (l.set i x).getD i default = x := by
  intro l
  induction l with
  | nil => intro i x h; simp at h
  | cons a l ih =>
    intro i x hi
    cases i with
    | zero => rfl
    | succ i2 =>
      simp only [List.set_cons_succ, List.getD_cons_succ]
      exact ih i2 x (by simpa using Nat.lt_of_succ_lt_succ hi)

theorem getD_set_ne : ∀ (l : List Elem) (i j : Nat) (x : Elem), i ≠ j →
    (l.set i x).getD j default = l.getD j default := by
  intro l
  induction l with
  | nil => intro i j x _; rfl
  | cons a l ih =>
    intro i j x hij
    cases i with
    | zero =>
      cases j with
      | zero => omega
      | succ j2 => rfl
    | succ i2 =>
      cases j with
      | zero => rfl
      | succ j2 =>
        simp only [List.set_cons_succ, List.getD_cons_succ]
        exact ih i2 j2 x (by omega)

/-! ### Structural helpers for the invariants -/

theorem setTail_tail (e : Elem) (v : Option (List Char)) : (e.setTail v).tail = v := by
  cases e; rfl

theorem setTail_self (e : Elem) : e.setTail e.tail = e := by
  cases e; rfl

theorem normElem_setTail (e : Elem) (v : Option (List Char)) :
    normElem (e.setTail v) = normElem e := by
  cases e; rfl

theorem markerOk_setTail (e : Elem) (v : Option (List Char)) :
    markerOk (e.setTail v) = markerOk e := by
  cases e; rfl

theorem normElem_mk (tag : String) (attrs : List (String × List Char))
    (tx tl : Option (List Char)) (ch : List Elem) :
    normElem (.mk tag attrs tx tl ch) = (noRunO tx && normChildren ch) := rfl

theorem normChildren_cons (c : Elem) (rest : List Elem) :
    normChildren (c :: rest) =
      (normElem c && noRunO c.tail && markerOk c && normChildren rest) := rfl

theorem good_normChildren : ∀ (l : List Elem),
    (∀ j, j < l.length → Good (l.getD j default)) → normChildren l = true := by
  intro l
  induction l with
  | nil => intro _; rfl
  | cons c rest ih =>
    intro h
    have hc : Good c := h 0 (by simp)
    have hrest : normChildren rest = true := by
      refine ih ?_
      intro j hj
      have := h (j + 1) (by simpa using Nat.succ_lt_succ hj)
      simpa using this
    rw [normChildren_cons, hc.1, hc.2.1, hc.2.2, hrest]
    rfl

theorem normChildren_good : ∀ (l : List Elem), normChildren l = true →
    ∀ c ∈ l, Good c := by
  intro l
  induction l with
  | nil => intro _ c hc; simp at hc
  | cons d rest ih =>
    intro h c hc
    rw [normChildren_cons] at h
    simp only [Bool.and_eq_true] at h
    rcases List.mem_cons.mp hc with rfl | hmem
    · exact ⟨h.1.1.1, h.1.1.2, h.1.2⟩
    · exact ih h.2 c hmem

theorem applyRemovals_zero (tl : List Char) (rest : List (Nat × List Char))
    (t : Option (List Char)) (cs : List Elem) :
    applyRemovals ((0, tl) :: rest) t cs =
      ((applyRemovals rest
          (some (collapseS (t.getD [] ++ (collapseS (' ' :: tl)).1)).1)
          (cs.eraseIdx 0)).1,
       (applyRemovals rest
          (some (collapseS (t.getD [] ++ (collapseS (' ' :: tl)).1)).1)
          (cs.eraseIdx 0)).2.1,
       (collapseS (' ' :: tl)).2.1 +
         (collapseS (t.getD [] ++ (collapseS (' ' :: tl)).1)).2.1 +
         (applyRemovals rest
            (some (collapseS (t.getD [] ++ (collapseS (' ' :: tl)).1)).1)
            (cs.eraseIdx 0)).2.2.1,
       (collapseS (' ' :: tl)).2.2 +
         (collapseS (t.getD [] ++ (collapseS (' ' :: tl)).1)).2.2 +
         (applyRemovals rest
            (some (collapseS (t.getD [] ++ (collapseS (' ' :: tl)).1)).1)
            (cs.eraseIdx 0)).2.2.2) := by
  simp [applyRemovals]

theorem applyRemovals_pos (i : Nat) (tl : List Char) (rest : List (Nat × List Char))
    (t : Option (List Char)) (cs : List Elem) (hi : i ≠ 0) :
    applyRemovals ((i, tl) :: rest) t cs =
      ((applyRemovals rest t
          ((cs.set (i - 1) ((cs.getD (i - 1) default).setTail
             (some (collapseS ((cs.getD (i - 1) default).tail.getD [] ++
               (collapseS (' ' :: tl)).1)).1))).eraseIdx i)).1,
       (applyRemovals rest t
          ((cs.set (i - 1) ((cs.getD (i - 1) default).setTail
             (some (collapseS ((cs.getD (i - 1) default).tail.getD [] ++
               (collapseS (' ' :: tl)).1)).1))).eraseIdx i)).2.1,
       (collapseS (' ' :: tl)).2.1 +
         (collapseS ((cs.getD (i - 1) default).tail.getD [] ++
           (collapseS (' ' :: tl)).1)).2.1 +
         (applyRemovals rest t
            ((cs.set (i - 1) ((cs.getD (i - 1) default).setTail
               (some (collapseS ((cs.getD (i - 1) default).tail.getD [] ++
                 (collapseS (' ' :: tl)).1)).1))).eraseIdx i)).2.2.1,
       (collapseS (' ' :: tl)).2.2 +
         (collapseS ((cs.getD (i - 1) default).tail.getD [] ++
           (collapseS (' ' :: tl)).1)).2.2 +
         (applyRemovals rest t
            ((cs.set (i - 1) ((cs.getD (i - 1) default).setTail
               (some (collapseS ((cs.getD (i - 1) default).tail.getD [] ++
                 (collapseS (' ' :: tl)).1)).1))).eraseIdx i)).2.2.2) := by
  simp [applyRemovals, hi]

theorem applyRemovals_nil (t : Option (List Char)) (cs : List Elem) :
    applyRemovals [] t cs = (t, cs, 0, 0) := rfl

/-- The removal pass, fed a strictly-decreasing schedule of valid indices and
a child list whose unscheduled positions are all `Good`, produces a run-free
text and an all-`Good` child list. -/
theorem applyRemovals_good :
    ∀ (rem : List (Nat × List Char)) (t : Option (List Char)) (cs : List Elem),
      List.Pairwise (fun p q => q.1 < p.1) rem →
      (∀ p ∈ rem, p.1 < cs.length) →
      (∀ j, j < cs.length → (∀ p ∈ rem, p.1 ≠ j) → Good (cs.getD j default)) →
      noRunO t = true →
      noRunO (applyRemovals rem t cs).1 = true ∧
      ∀ j, j < (applyRemovals rem t cs).2.1.length →
        Good ((applyRemovals rem t cs).2.1.getD j default) := by
  intro rem
  induction rem with
  | nil =>
    intro t cs _ _ hgood ht
    refine ⟨ht, ?_⟩
    intro j hj
    rw [applyRemovals_nil] at hj ⊢
    exact hgood j hj (by intro p hp; simp at hp)
  | cons p0 rest ih =>
    obtain ⟨i, tl⟩ := p0
    intro t cs hpw hbound hgood ht
    have hpw2 : List.Pairwise (fun p q : Nat × List Char => q.1 < p.1) rest :=
      hpw.of_cons
    have hlt : ∀ q ∈ rest, q.1 < i := (List.pairwise_cons.mp hpw).1
    have hi_len : i < cs.length := hbound (i, tl) (by simp)
    by_cases hi : i = 0
    · subst hi
      have hrest_nil : rest = [] := by
        cases rest with
        | nil => rfl
        | cons q r => exact absurd (hlt q (by simp)) (by omega)
      subst hrest_nil
      rw [applyRemovals_zero, applyRemovals_nil]
      constructor
      · simpa [noRunO] using collapseS_noRun
          ((t.getD [] ++ (collapseS (' ' :: tl)).1))
      · intro j hj
        simp only [List.length_eraseIdx, hi_len, if_pos] at hj
        rw [getD_eraseIdx_ge cs 0 j (by omega) hi_len]
        apply hgood (j + 1) (by omega)
        intro p hp
        rcases List.mem_cons.mp hp with rfl | hmem
        · simp
        · simp at hmem
    · rw [applyRemovals_pos i tl rest t cs hi]
      generalize hcs2 : (cs.set (i - 1) ((cs.getD (i - 1) default).setTail
          (some (collapseS ((cs.getD (i - 1) default).tail.getD [] ++
            (collapseS (' ' :: tl)).1)).1))).eraseIdx i = cs2
      have hlen2 : cs2.length = cs.length - 1 := by
        rw [← hcs2, List.length_eraseIdx]
        simp [hi_len]
      have hgb : ∀ q ∈ rest, q.1 < cs2.length := by
        intro q hq
        have := hlt q hq
        omega
      have hgg : ∀ j, j < cs2.length → (∀ q ∈ rest, q.1 ≠ j) →
          Good (cs2.getD j default) := by
        intro j hj hne
        rw [← hcs2]
        by_cases hij : i ≤ j
        · rw [getD_eraseIdx_ge _ i j hij (by rw [List.length_set]; exact hi_len),
            getD_set_ne _ _ _ _ (by omega)]
          apply hgood (j + 1) (by omega)
          intro p hp
          rcases List.mem_cons.mp hp with rfl | hmem
          · simp; omega
          · have := hlt p hmem
            omega
        · have hji : j < i := by omega
          rw [getD_eraseIdx_lt _ i j hji]
          by_cases hje : j = i - 1
          · subst hje
            rw [getD_set_eq _ _ _ (by omega)]
            have hprev : Good (cs.getD (i - 1) default) := by
              apply hgood (i - 1) (by omega)
              intro p hp
              rcases List.mem_cons.mp hp with rfl | hmem
              · simp; omega
              · exact hne p hmem
            refine ⟨?_, ?_, ?_⟩
            · rw [normElem_setTail]
              exact hprev.1
            · rw [setTail_tail]
              simpa [noRunO] using collapseS_noRun _
            · rw [markerOk_setTail]
              exact hprev.2.2
          · rw [getD_set_ne _ _ _ _ (by omega)]
            apply hgood j (by omega)
            intro p hp
            rcases List.mem_cons.mp hp with rfl | hmem
            · simp; omega
            · exact hne p hmem
      exact ih t cs2 hpw2 hgb hgg ht

theorem scan_keep_facts (idx n0 : Nat) (c1 : Elem) (cs2 : List Elem)
    (rem2 : List (Nat × List Char))
    (hok : markerOk c1 = true) (hn1 : normElem c1 = true)
    (h1 : cs2.length = n0)
    (h2 : ∀ p ∈ rem2, idx + 1 ≤ p.1 ∧ p.1 - (idx + 1) < cs2.length)
    (h3 : List.Pairwise (fun p q : Nat × List Char => p.1 < q.1) rem2)
    (h4 : ∀ j, j < cs2.length → (∀ p ∈ rem2, p.1 ≠ (idx + 1) + j) →
      Good (cs2.getD j default)) :
    (c1.setTail (collapseO c1.tail).1 :: cs2).length = n0 + 1 ∧
    (∀ p ∈ rem2, idx ≤ p.1 ∧
      p.1 - idx < (c1.setTail (collapseO c1.tail).1 :: cs2).length) ∧
    List.Pairwise (fun p q : Nat × List Char => p.1 < q.1) rem2 ∧
    (∀ j, j < (c1.setTail (collapseO c1.tail).1 :: cs2).length →
      (∀ p ∈ rem2, p.1 ≠ idx + j) →
      Good ((c1.setTail (collapseO c1.tail).1 :: cs2).getD j default)) := by
  refine ⟨by simp [h1], ?_, h3, ?_⟩
  · intro p hp
    have := h2 p hp
    constructor
    · omega
    · simp
      omega
  · intro j hj hne
    cases j with
    | zero =>
      rw [List.getD_cons_zero]
      refine ⟨?_, ?_, ?_⟩
      · rw [normElem_setTail]
        exact hn1
      · rw [setTail_tail]
        exact collapseO_noRun _
      · rw [markerOk_setTail]
        exact hok
    | succ j2 =>
      rw [List.getD_cons_succ]
      apply h4 j2 (by simp at hj; omega)
      intro p hp
      have := hne p hp
      omega

theorem scan_sched_facts (idx n0 : Nat) (c1 : Elem) (tl0 : List Char)
    (cs2 : List Elem) (rem2 : List (Nat × List Char))
    (h1 : cs2.length = n0)
    (h2 : ∀ p ∈ rem2, idx + 1 ≤ p.1 ∧ p.1 - (idx + 1) < cs2.length)
    (h3 : List.Pairwise (fun p q : Nat × List Char => p.1 < q.1) rem2)
    (h4 : ∀ j, j < cs2.length → (∀ p ∈ rem2, p.1 ≠ (idx + 1) + j) →
      Good (cs2.getD j default)) :
    (c1 :: cs2).length = n0 + 1 ∧
    (∀ p ∈ (idx, tl0) :: rem2, idx ≤ p.1 ∧ p.1 - idx < (c1 :: cs2).length) ∧
    List.Pairwise (fun p q : Nat × List Char => p.1 < q.1) ((idx, tl0) :: rem2) ∧
    (∀ j, j < (c1 :: cs2).length → (∀ p ∈ (idx, tl0) :: rem2, p.1 ≠ idx + j) →
      Good ((c1 :: cs2).getD j default)) := by
  refine ⟨by simp [h1], ?_, ?_, ?_⟩
  · intro p hp
    rcases List.mem_cons.mp hp with rfl | hmem
    · simp
    · have := h2 p hmem
      constructor
      · omega
      · simp
        omega
  · refine List.pairwise_cons.mpr ⟨?_, h3⟩
    intro q hq
    have := h2 q hq
    simp
    omega
  · intro j hj hne
    cases j with
    | zero =>
      exfalso
      have := hne (idx, tl0) (List.mem_cons_self _ _)
      simp at this
    | succ j2 =>
      rw [List.getD_cons_succ]
      apply h4 j2 (by simp at hj; omega)
      intro p hp
      have := hne p (List.mem_cons_of_mem _ hp)
      omega

/-- What a successful child scan guarantees: as many children as before, a
strictly increasing schedule of valid indices at or above `idx`, and `Good`
children at every unscheduled position. -/
theorem fixScan_good_aux : ∀ (ch : List Elem),
    (∀ c ∈ ch, ∀ r : Elem × Nat × Nat, fixElement c = some r →
      normElem r.1 = true) →
    ∀ (idx : Nat) (cs : List Elem) (rem : List (Nat × List Char)) (g k : Nat),
      fixScan idx ch = some (cs, rem, g, k) →
      cs.length = ch.length ∧
      (∀ p ∈ rem, idx ≤ p.1 ∧ p.1 - idx < cs.length) ∧
      List.Pairwise (fun p q : Nat × List Char => p.1 < q.1) rem ∧
      (∀ j, j < cs.length → (∀ p ∈ rem, p.1 ≠ idx + j) →
        Good (cs.getD j default)) := by
  intro ch
  induction ch with
  | nil =>
    intro _ idx cs rem g k h
    rw [fixScan_nil] at h
    simp only [Option.some.injEq, Prod.mk.injEq] at h
    obtain ⟨h1, h2, _, _⟩ := h
    subst h1
    subst h2
    refine ⟨rfl, by simp, List.Pairwise.nil, by simp⟩
  | cons c rest ih =>
    intro hall idx cs rem g k h
    have hallrest : ∀ c2 ∈ rest, ∀ r : Elem × Nat × Nat,
        fixElement c2 = some r → normElem r.1 = true :=
      fun c2 hc2 => hall c2 (List.mem_cons_of_mem c hc2)
    cases hfe : fixElement c with
    | none => rw [fixScan_cons_none idx c rest hfe] at h; cases h
    | some r1 =>
      obtain ⟨c1, gc, kc⟩ := r1
      have hn1 : normElem c1 = true := hall c (List.mem_cons_self c rest) _ hfe
      by_cases htag : c1.tag = tS
      · cases hv : lookupAttr c1.attrs tC with
        | none =>
          rw [fixScan_cons_keep idx c rest c1 gc kc hfe (Or.inr (Or.inl hv))] at h
          cases hs2 : fixScan (idx + 1) rest with
          | none => rw [hs2] at h; cases h
          | some res2 =>
            obtain ⟨cs2, rem2, g2, k2⟩ := res2
            rw [hs2] at h
            simp only [Option.some.injEq, Prod.mk.injEq] at h
            obtain ⟨h1, h2, _, _⟩ := h
            subst h1
            subst h2
            obtain ⟨i1, i2, i3, i4⟩ := ih hallrest (idx + 1) cs2 rem2 g2 k2 hs2
            have hok : markerOk c1 = true := by
              simp [markerOk, htag, hv]
            exact scan_keep_facts idx rest.length c1 cs2 rem2 hok hn1 i1 i2 i3 i4
        | some v =>
          cases hn : pyInt v with
          | none => rw [fixScan_cons_raise idx c rest c1 gc kc v hfe htag hv hn] at h; cases h
          | some n =>
            by_cases h1n : 1 < n
            · rw [fixScan_cons_sched idx c rest c1 gc kc v n hfe htag hv hn h1n] at h
              cases hs2 : fixScan (idx + 1) rest with
              | none => rw [hs2] at h; cases h
              | some res2 =>
                obtain ⟨cs2, rem2, g2, k2⟩ := res2
                rw [hs2] at h
                simp only [Option.some.injEq, Prod.mk.injEq] at h
                obtain ⟨h1, h2, _, _⟩ := h
                subst h1
                subst h2
                obtain ⟨i1, i2, i3, i4⟩ := ih hallrest (idx + 1) cs2 rem2 g2 k2 hs2
                exact scan_sched_facts idx rest.length c1 (c1.tail.getD [])
                  cs2 rem2 i1 i2 i3 i4
            · rw [fixScan_cons_keep idx c rest c1 gc kc hfe
                (Or.inr (Or.inr ⟨v, n, hv, hn, h1n⟩))] at h
              cases hs2 : fixScan (idx + 1) rest with
              | none => rw [hs2] at h; cases h
              | some res2 =>
                obtain ⟨cs2, rem2, g2, k2⟩ := res2
                rw [hs2] at h
                simp only [Option.some.injEq, Prod.mk.injEq] at h
                obtain ⟨h1, h2, _, _⟩ := h
                subst h1
                subst h2
                obtain ⟨i1, i2, i3, i4⟩ := ih hallrest (idx + 1) cs2 rem2 g2 k2 hs2
                have hok : markerOk c1 = true := by
                  simp only [markerOk, htag, hv, hn]
                  simp
                  omega
                exact scan_keep_facts idx rest.length c1 cs2 rem2 hok hn1 i1 i2 i3 i4
      · rw [fixScan_cons_keep idx c rest c1 gc kc hfe (Or.inl htag)] at h
        cases hs2 : fixScan (idx + 1) rest with
        | none => rw [hs2] at h; cases h
        | some res2 =>
          obtain ⟨cs2, rem2, g2, k2⟩ := res2
          rw [hs2] at h
          simp only [Option.some.injEq, Prod.mk.injEq] at h
          obtain ⟨h1, h2, _, _⟩ := h
          subst h1
          subst h2
          obtain ⟨i1, i2, i3, i4⟩ := ih hallrest (idx + 1) cs2 rem2 g2 k2 hs2
          have hok : markerOk c1 = true := by
            unfold markerOk
            rw [if_neg (by simpa using htag)]
          exact scan_keep_facts idx rest.length c1 cs2 rem2 hok hn1 i1 i2 i3 i4

/-- A successful run of `fix_element` leaves a normalized element. -/
theorem fixElement_norm : ∀ (e : Elem) (r : Elem × Nat × Nat),
    fixElement e = some r → normElem r.1 = true := by
  have main : ∀ (N : Nat) (e : Elem), sizeOf e ≤ N →
      ∀ r : Elem × Nat × Nat, fixElement e = some r → normElem r.1 = true := by
    intro N
    induction N with
    | zero =>
      intro e he
      exfalso
      cases e with
      | mk tag attrs tx tl ch =>
        simp at he
    | succ N ihN =>
      intro e he r hr
      cases e with
      | mk tag attrs tx tl ch =>
        have hch : ∀ c ∈ ch, ∀ r2 : Elem × Nat × Nat,
            fixElement c = some r2 → normElem r2.1 = true := by
          intro c hc
          have h1 : sizeOf c < sizeOf ch := List.sizeOf_lt_of_mem hc
          have h2 : sizeOf ch < sizeOf (Elem.mk tag attrs tx tl ch) := by
            have := Elem.mk.sizeOf_spec tag attrs tx tl ch
            omega
          exact ihN c (by omega)
        cases hscan : fixScan 0 ch with
        | none => rw [fixElement_none _ _ _ _ _ hscan] at hr; cases hr
        | some res =>
          obtain ⟨cs, rem, g2, k2⟩ := res
          rw [fixElement_some tag attrs tx tl ch cs rem g2 k2 hscan] at hr
          injection hr with hr2
          subst hr2
          obtain ⟨hlen, hbnd, hpw, hgood⟩ :=
            fixScan_good_aux ch hch 0 cs rem g2 k2 hscan
          have hrev_pw : List.Pairwise
              (fun p q : Nat × List Char => q.1 < p.1) rem.reverse := by
            rw [List.pairwise_reverse]
            exact hpw
          have hrev_bnd : ∀ p ∈ rem.reverse, p.1 < cs.length := by
            intro p hp
            have := hbnd p (List.mem_reverse.mp hp)
            omega
          have hrev_good : ∀ j, j < cs.length →
              (∀ p ∈ rem.reverse, p.1 ≠ j) → Good (cs.getD j default) := by
            intro j hj hne
            apply hgood j hj
            intro p hp
            have := hne p (List.mem_reverse.mpr hp)
            omega
          obtain ⟨hA, hB⟩ := applyRemovals_good rem.reverse (collapseO tx).1 cs
            hrev_pw hrev_bnd hrev_good (collapseO_noRun tx)
          rw [normElem_mk, hA, good_normChildren _ hB]
          rfl
  intro e r hr
  exact main (sizeOf e) e (le_refl _) r hr

/-- On a normalized child list the scan keeps everything and counts nothing. -/
theorem fixScan_id_aux : ∀ (ch : List Elem),
    (∀ c ∈ ch, normElem c = true → fixElement c = some (c, 0, 0)) →
    normChildren ch = true → ∀ idx, fixScan idx ch = some (ch, [], 0, 0) := by
  intro ch
  induction ch with
  | nil => intro _ _ idx; exact fixScan_nil idx
  | cons c rest ih =>
    intro hall hnc idx
    rw [normChildren_cons] at hnc
    simp only [Bool.and_eq_true] at hnc
    obtain ⟨⟨⟨hnel, htl⟩, hok⟩, hrest⟩ := hnc
    have hfe : fixElement c = some (c, 0, 0) :=
      hall c (List.mem_cons_self c rest) hnel
    have hkeep : c.tag ≠ tS ∨ lookupAttr c.attrs tC = none ∨
        ∃ v n, lookupAttr c.attrs tC = some v ∧ pyInt v = some n ∧ ¬ 1 < n := by
      by_cases htag : c.tag = tS
      · cases hv : lookupAttr c.attrs tC with
        | none => exact Or.inr (Or.inl rfl)
        | some v =>
          cases hn : pyInt v with
          | none =>
            exfalso
            simp [markerOk, htag, hv, hn] at hok
          | some n =>
            have hle : n ≤ 1 := by
              simp [markerOk, htag, hv, hn] at hok
              exact hok
            exact Or.inr (Or.inr ⟨v, n, rfl, hn, by omega⟩)
      · exact Or.inl htag
    rw [fixScan_cons_keep idx c rest c 0 0 hfe hkeep,
      ih (fun c2 h2 => hall c2 (List.mem_cons_of_mem _ h2)) hrest (idx + 1)]
    rw [collapseO_id c.tail htl]
    simp [setTail_self]

/-- `fix_element` is the identity (with zero counters) on normalized trees. -/
theorem fixElement_id : ∀ (e : Elem), normElem e = true →
    fixElement e = some (e, 0, 0) := by
  have main : ∀ (N : Nat) (e : Elem), sizeOf e ≤ N → normElem e = true →
      fixElement e = some (e, 0, 0) := by
    intro N
    induction N with
    | zero =>
      intro e he
      exfalso
      cases e with
      | mk tag attrs tx tl ch => simp at he
    | succ N ihN =>
      intro e he hnorm
      cases e with
      | mk tag attrs tx tl ch =>
        rw [normElem_mk] at hnorm
        simp only [Bool.and_eq_true] at hnorm
        obtain ⟨htx, hch⟩ := hnorm
        have hall : ∀ c ∈ ch, normElem c = true → fixElement c = some (c, 0, 0) := by
          intro c hc
          have h1 : sizeOf c < sizeOf ch := List.sizeOf_lt_of_mem hc
          have h2 : sizeOf ch < sizeOf (Elem.mk tag attrs tx tl ch) := by
            have := Elem.mk.sizeOf_spec tag attrs tx tl ch
            omega
          exact ihN c (by omega)
        have hscan := fixScan_id_aux ch hall hch 0
        rw [fixElement_some tag attrs tx tl ch ch [] 0 0 hscan]
        simp only [List.reverse_nil, applyRemovals_nil, collapseO_id tx htx]
  intro e
  exact fun h => main (sizeOf e) e (le_refl _) h

/-! ### Dialect A invariants -/

theorem fixTextAttr_noRun (v : Option (List Char)) :
    noRunO (fixTextAttr v).1 = true := by
  cases v with
  | none => rfl
  | some s =>
    unfold fixTextAttr
    by_cases he : s.isEmpty
    · simp only [he, if_true]
      have h0 : s = [] := by simpa using he
      subst h0
      rfl
    · simp only [he, Bool.false_eq_true, if_false]
      by_cases hz : (subnSp s).2 ≠ 0
      · rw [if_pos hz]
        simpa [noRunO] using subn_noRun s
      · rw [if_neg hz]
        simpa [noRunO] using noRun_of_zero s (by omega)

theorem fixTextAttr_id (v : Option (List Char)) (h : noRunO v = true) :
    fixTextAttr v = (v, 0, 0, false) := by
  cases v with
  | none => rfl
  | some s =>
    unfold fixTextAttr
    by_cases he : s.isEmpty
    · simp [he]
    · have hz : (subnSp s).2 = 0 := by
        have hs : subnSp s = (s, 0) := by
          simpa [subnSp] using crGo_noRun_id s [] (by simp) (by simp)
            (by simpa [noRunO] using h)
        rw [hs]
      simp [he, hz]

theorem docxNormE_mk (tag : String) (attrs : List (String × List Char))
    (tx tl : Option (List Char)) (ch : List Elem) :
    docxNormE (.mk tag attrs tx tl ch) =
      ((if tag == wT then noRunO tx && noRunO tl else true) && docxNormL ch) := rfl

theorem docxNormL_cons (c : Elem) (rest : List Elem) :
    docxNormL (c :: rest) = (docxNormE c && docxNormL rest) := rfl

theorem fixDocxList_nil : fixDocxList [] = ([], 0, 0) := rfl

theorem fixDocxList_cons (c : Elem) (rest : List Elem) :
    fixDocxList (c :: rest) =
      ((fixDocxTree c).1 :: (fixDocxList rest).1,
       (fixDocxTree c).2.1 + (fixDocxList rest).2.1,
       (fixDocxTree c).2.2 + (fixDocxList rest).2.2) := by
  simp [fixDocxList]

theorem fixDocxTree_wt (attrs : List (String × List Char))
    (tx tl : Option (List Char)) (ch : List Elem) :
    fixDocxTree (.mk wT attrs tx tl ch) =
      (.mk wT
        (if (fixTextAttr tx).2.2.2 &&
            !(((fixTextAttr tx).1.getD []) == pyStrip ((fixTextAttr tx).1.getD [])) then
          setAttr attrs xmlSpaceKey "preserve".toList else attrs)
        (fixTextAttr tx).1 (fixTextAttr tl).1 (fixDocxList ch).1,
       (fixTextAttr tx).2.1 + (fixTextAttr tl).2.1 + (fixDocxList ch).2.1,
       (fixTextAttr tx).2.2.1 + (fixTextAttr tl).2.2.1 + (fixDocxList ch).2.2) := by
  simp [fixDocxTree]

theorem fixDocxTree_nonwt (tag : String) (attrs : List (String × List Char))
    (tx tl : Option (List Char)) (ch : List Elem) (h : tag ≠ wT) :
    fixDocxTree (.mk tag attrs tx tl ch) =
      (.mk tag attrs tx tl (fixDocxList ch).1,
       (fixDocxList ch).2.1, (fixDocxList ch).2.2) := by
  simp [fixDocxTree, h]

theorem docxNormL_of_all : ∀ (l : List Elem),
    (∀ c ∈ l, docxNormE (fixDocxTree c).1 = true) →
    docxNormL (fixDocxList l).1 = true := by
  intro l
  induction l with
  | nil => intro _; rfl
  | cons c rest ih =>
    intro h
    rw [fixDocxList_cons, docxNormL_cons, h c (List.mem_cons_self _ _),
      ih (fun c2 h2 => h c2 (List.mem_cons_of_mem _ h2))]
    rfl

theorem fixDocx_norm : ∀ (e : Elem), docxNormE (fixDocxTree e).1 = true := by
  have main : ∀ (N : Nat) (e : Elem), sizeOf e ≤ N →
      docxNormE (fixDocxTree e).1 = true := by
    intro N
    induction N with
    | zero =>
      intro e he
      exfalso
      cases e with
      | mk tag attrs tx tl ch => simp at he
    | succ N ihN =>
      intro e he
      cases e with
      | mk tag attrs tx tl ch =>
        have hlist : docxNormL (fixDocxList ch).1 = true := by
          apply docxNormL_of_all
          intro c hc
          have h1 : sizeOf c < sizeOf ch := List.sizeOf_lt_of_mem hc
          have h2 : sizeOf ch < sizeOf (Elem.mk tag attrs tx tl ch) := by
            have := Elem.mk.sizeOf_spec tag attrs tx tl ch
            omega
          exact ihN c (by omega)
        by_cases htag : tag = wT
        · subst htag
          rw [fixDocxTree_wt, docxNormE_mk]
          rw [fixTextAttr_noRun tx, fixTextAttr_noRun tl, hlist]
          simp
        · rw [fixDocxTree_nonwt tag attrs tx tl ch htag, docxNormE_mk]
          rw [hlist]
          have : (tag == wT) = false := by simpa using htag
          rw [this]
          rfl
  intro e
  exact main (sizeOf e) e (le_refl _)

theorem fixDocxList_id : ∀ (l : List Elem),
    (∀ c ∈ l, docxNormE c = true → fixDocxTree c = (c, 0, 0)) →
    docxNormL l = true → fixDocxList l = (l, 0, 0) := by
  intro l
  induction l with
  | nil => intro _ _; rfl
  | cons c rest ih =>
    intro hall h
    rw [docxNormL_cons] at h
    simp only [Bool.and_eq_true] at h
    rw [fixDocxList_cons, hall c (List.mem_cons_self _ _) h.1,
      ih (fun c2 h2 => hall c2 (List.mem_cons_of_mem _ h2)) h.2]
    rfl

theorem fixDocx_id : ∀ (e : Elem), docxNormE e = true →
    fixDocxTree e = (e, 0, 0) := by
  have main : ∀ (N : Nat) (e : Elem), sizeOf e ≤ N → docxNormE e = true →
      fixDocxTree e = (e, 0, 0) := by
    intro N
    induction N with
    | zero =>
      intro e he
      exfalso
      cases e with
      | mk tag attrs tx tl ch => simp at he
    | succ N ihN =>
      intro e he hnorm
      cases e with
      | mk tag attrs tx tl ch =>
        rw [docxNormE_mk] at hnorm
        simp only [Bool.and_eq_true] at hnorm
        obtain ⟨hwt, hch⟩ := hnorm
        have hlist : fixDocxList ch = (ch, 0, 0) := by
          apply fixDocxList_id
          · intro c hc
            have h1 : sizeOf c < sizeOf ch := List.sizeOf_lt_of_mem hc
            have h2 : sizeOf ch < sizeOf (Elem.mk tag attrs tx tl ch) := by
              have := Elem.mk.sizeOf_spec tag attrs tx tl ch
              omega
            exact ihN c (by omega)
          · exact hch
        by_cases htag : tag = wT
        · subst htag
          rw [if_pos (by simp)] at hwt
          simp only [Bool.and_eq_true] at hwt
          rw [fixDocxTree_wt, fixTextAttr_id tx hwt.1, fixTextAttr_id tl hwt.2, hlist]
          simp
        · rw [fixDocxTree_nonwt tag attrs tx tl ch htag, hlist]
  intro e
  exact fun h => main (sizeOf e) e (le_refl _) h

/-! ### Claim C7: idempotence of both normalizers -/

/-- C7: running either normalizer a second time on its own output changes
nothing and reports zero runs and zero characters. -/
theorem C7_idempotent :
    (∀ e : Elem, fixDocxTree (fixDocxTree e).1 = ((fixDocxTree e).1, 0, 0)) ∧
    (∀ (e : Elem) (r : Elem × Nat × Nat), fixElement e = some r →
      fixElement r.1 = some (r.1, 0, 0)) := by
  constructor
  · intro e
    exact fixDocx_id (fixDocxTree e).1 (fixDocx_norm e)
  · intro e r h
    exact fixElement_id r.1 (fixElement_norm e r h)

/-- Witness for C7: a second pass over already-normalized outputs is a no-op,
on a concrete DOCX node and on the ODT scenario tree. -/
theorem C7_idempotent_witness :
    fixDocxTree (fixDocxTree (.mk wT [] (some "a  b".toList) none [])).1 =
      ((fixDocxTree (.mk wT [] (some "a  b".toList) none [])).1, 0, 0) ∧
    fixElement mixTree = some (mixTreeOut, 2, 7) ∧
    fixElement mixTreeOut = some (mixTreeOut, 0, 0) :=
  ⟨C7_idempotent.1 (.mk wT [] (some "a  b".toList) none []), rfl,
   C7_idempotent.2 mixTree (mixTreeOut, 2, 7) rfl⟩

/-! ### Claim C9: no removable marker survives -/

theorem iterElems_eq (e : Elem) : iterElems e = e :: iterList e.children := by
  cases e
  rfl

theorem iterList_markerOk_aux : ∀ (l : List Elem),
    normChildren l = true →
    (∀ c ∈ l, ∀ d ∈ iterList c.children, markerOk d = true) →
    ∀ d ∈ iterList l, markerOk d = true := by
  intro l
  induction l with
  | nil => intro _ _ d hd; simp [iterList] at hd
  | cons c rest ih =>
    intro hnc hdesc d hd
    rw [normChildren_cons] at hnc
    simp only [Bool.and_eq_true] at hnc
    rw [show iterList (c :: rest) = iterElems c ++ iterList rest from rfl] at hd
    rcases List.mem_append.mp hd with hd1 | hd2
    · rw [iterElems_eq] at hd1
      rcases List.mem_cons.mp hd1 with rfl | hdd
      · exact hnc.1.2
      · exact hdesc c (List.mem_cons_self _ _) d hdd
    · exact ih hnc.2 (fun c2 h2 => hdesc c2 (List.mem_cons_of_mem _ h2)) d hd2

/-- Every strict descendant of a normalized element is `markerOk`. -/
theorem norm_desc_markerOk : ∀ (e : Elem), normElem e = true →
    ∀ d ∈ iterList e.children, markerOk d = true := by
  have main : ∀ (N : Nat) (e : Elem), sizeOf e ≤ N → normElem e = true →
      ∀ d ∈ iterList e.children, markerOk d = true := by
    intro N
    induction N with
    | zero =>
      intro e he
      exfalso
      cases e with
      | mk tag attrs tx tl ch => simp at he
    | succ N ihN =>
      intro e he hnorm
      cases e with
      | mk tag attrs tx tl ch =>
        rw [normElem_mk] at hnorm
        simp only [Bool.and_eq_true] at hnorm
        apply iterList_markerOk_aux ch hnorm.2
        intro c hc
        have h1 : sizeOf c < sizeOf ch := List.sizeOf_lt_of_mem hc
        have h2 : sizeOf ch < sizeOf (Elem.mk tag attrs tx tl ch) := by
          have := Elem.mk.sizeOf_spec tag attrs tx tl ch
          omega
        have hcn : normElem c = true :=
          (normChildren_good ch hnorm.2 c hc).1
        exact ihN c (by omega) hcn
  intro e
  exact fun h => main (sizeOf e) e (le_refl _) h

/-- C9: after a successful run of `_fix_odt_xml`, no element below the root is
a `text:s` marker with repeat-count greater than 1 — every such marker has
been detached. -/
theorem C9_no_removable_markers (e : Elem) (r : Elem × Nat × Nat)
    (h : fixElement e = some r) :
    ∀ d ∈ iterList r.1.children, d.tag = tS →
      ∀ v, lookupAttr d.attrs tC = some v → ∀ n, pyInt v = some n → n ≤ 1 := by
  intro d hd htag v hv n hn
  have hok := norm_desc_markerOk r.1 (fixElement_norm e r h) d hd
  simp [markerOk, htag, hv, hn] at hok
  exact hok

/-- Witness for C9: a retained count=1 marker below the root satisfies the
bound. -/
theorem C9_no_removable_markers_witness :
    fixElement (.mk tP [] none none [.mk tS [(tC, "1".toList)] none none []]) =
      some (.mk tP [] none none [.mk tS [(tC, "1".toList)] none none []], 0, 0) ∧
    (1 : Int) ≤ 1 :=
  ⟨rfl,
   C9_no_removable_markers
     (.mk tP [] none none [.mk tS [(tC, "1".toList)] none none []])
     (.mk tP [] none none [.mk tS [(tC, "1".toList)] none none []], 0, 0) rfl
     (.mk tS [(tC, "1".toList)] none none []) (List.mem_cons_self _ _) rfl
     ("1".toList) rfl 1 rfl⟩
